import Mathlib

/-!
Verification of the GoatCounter statistics-aggregation core.

This file shallowly embeds the parts of the Go source that the spec's claims
talk about, and proves (or refutes) each claim against the embedding.

Modelling conventions, used throughout:
* Go `int` is modelled as `Int` (no arithmetic here ever approaches 2^63).
* `time.Time` values are modelled as minutes since an arbitrary epoch (`Int`);
  `Format("2006-01-02")` is injective on calendar days, so a formatted day
  string is abstracted as its day number `t / 1440` (floor division, which is
  what calendar-day truncation does).  String equality of two formatted days
  is equality of day numbers.
* Go strings used only as opaque keys stay `String`; the one string the code
  manipulates byte-wise (`Hit.Path`) is modelled as `List Char` (the code's
  paths of interest are ASCII, where Go's byte indexing coincides with
  character indexing).
* Code that can panic is embedded with result type `Option _`; `none` means
  the Go code panics on that input.
* The SQL tables an aggregator reads and writes are passed in and out
  explicitly (`location_stats` as an association list of rows).
-/

namespace GC

/-- One day's stats as served by the query engine (Go struct `Stat`).
`Day` (a `"2006-01-02"` string in Go) is abstracted as a day number. -/
structure Stat where
  day : Int
  hourly : List Int
  hourlyUnique : List Int
  daily : Int := 0
  dailyUnique : Int := 0
  deriving Repr, DecidableEq

/-- A path plus its ordered day stats (Go struct `HitStat`).  `statMax`
models the Go field `Max`. -/
structure HitStat where
  count : Int := 0
  countUnique : Int := 0
  pathID : Int := 0
  path : String := ""
  title : String := ""
  event : Bool := false
  statMax : Int := 0
  stats : List Stat := []
  deriving Repr, DecidableEq

/-- The one piece of `Site` the query engine uses: the timezone offset in
minutes (`site.Settings.Timezone.Offset()`), plus the fields the reindex
orchestrator reads. -/
structure Site where
  tzOffsetMin : Int := 0
  id : Int := 0
  state : String := "a"
  receivedData : Bool := false
  deriving Repr, DecidableEq

/-- Go constant `goatcounter.StateActive`. -/
def StateActive : String := "a"

/-! ## applyOffset (unnamed source file part_000, lines 288-339) -/

/-- The whole-hour shift computed at the top of `applyOffset`:

    offset := site.Settings.Timezone.Offset()
    if offset%60 != 0 { offset += 30 }
    offset /= 60

Go's `%` and `/` truncate towards zero, which is `Int.tmod` / `Int.tdiv`. -/
def offsetHours (offsetMin : Int) : Int :=
  let offset := if Int.tmod offsetMin 60 ≠ 0 then offsetMin + 30 else offsetMin
  Int.tdiv offset 60

/-- The loop of the `offset > 0` branch of `applyOffset`.  `popped` /
`poppedU` carry the previous day's tail (initially `offset` zeros from
`make([]int, offset)`).  For each day the Go code prepends `popped`, then
splits the result at `o := len(Hourly) - offset` (length taken after the
prepend), reusing the same `o` for `HourlyUnique`. -/
def shiftForward (offset : Nat) : List Int → List Int → List Stat → List Stat
  | _, _, [] => []
  | popped, poppedU, s :: rest =>
    let hourly := popped ++ s.hourly
    let o := hourly.length - offset
    let hourlyU := poppedU ++ s.hourlyUnique
    { s with hourly := hourly.take o, hourlyUnique := hourlyU.take o } ::
      shiftForward offset (hourly.drop o) (hourlyU.drop o) rest

/-- The loop of the `offset < 0` branch of `applyOffset`, which walks the
days from last to first; the returned pair components are the final
`popped` / `poppedUnique` values.  For each day the Go code appends
`popped`, takes the first `offset` entries as the new `popped` and keeps
the rest. -/
def shiftBackward (offset : Nat) : List Stat → List Int → List Int →
    List Stat × List Int × List Int
  | [], popped, poppedU => ([], popped, poppedU)
  | s :: rest, popped, poppedU =>
    let z := shiftBackward offset rest popped poppedU
    let hourly := s.hourly ++ z.2.1
    let hourlyU := s.hourlyUnique ++ z.2.2
    ({ s with hourly := hourly.drop offset, hourlyUnique := hourlyU.drop offset } :: z.1,
      hourly.take offset, hourlyU.take offset)

/-- Go `stats[1:]`: panics (slice bound 1 > cap 0) on an empty slice. -/
def goTail : List Stat → Option (List Stat)
  | [] => none
  | _ :: t => some t

/-- Go `stats[:len(stats)-1]`: panics (negative bound) on an empty slice. -/
def goDropLast : List Stat → Option (List Stat)
  | [] => none
  | l => some l.dropLast

/-- The `switch` of `applyOffset`, parameterised by the already-computed
whole-hour offset.  Each path's day list is shifted and one boundary day
is dropped (`stats[1:]` resp. `stats[:len(stats)-1]`). -/
def applyOffsetHours (offset : Int) (hh : List HitStat) : Option (List HitStat) :=
  if 0 < offset then
    let n := offset.toNat
    hh.mapM fun p =>
      (goTail (shiftForward n (List.replicate n 0) (List.replicate n 0) p.stats)).map
        fun st => { p with stats := st }
  else if offset < 0 then
    let n := (-offset).toNat
    hh.mapM fun p =>
      (goDropLast (shiftBackward n p.stats (List.replicate n 0) (List.replicate n 0)).1).map
        fun st => { p with stats := st }
  else some hh

/-- Embedding of `applyOffset(hh, site)`.  Returns `none` when the Go code panics. -/
def applyOffset (hh : List HitStat) (site : Site) : Option (List HitStat) :=
  if hh.length = 0 then some hh
  else applyOffsetHours (offsetHours site.tzOffsetMin) hh

/-- Rounding an offset in minutes to the nearest whole hour, ties (exact
30-minute offsets) rounding up towards +infinity.  This is the spec's
description of the shift amount; floor of `(m+30)/60` is exactly
round-half-up. -/
def roundNearestHourUp (m : Int) : Int := Int.fdiv (m + 30) 60

/-! ## Characterising the two shift loops -/

/-- What the spec says a positive shift does to one day: the first `n`
hours are backfilled from the previous day's last `n` hours, the rest is
the day's own first `24 - n` hours shifted right. -/
def backfillDay (n : Nat) (prev cur : Stat) : Stat :=
  { cur with
    hourly := prev.hourly.drop (24 - n) ++ cur.hourly.take (24 - n)
    hourlyUnique := prev.hourlyUnique.drop (24 - n) ++ cur.hourlyUnique.take (24 - n) }

/-- What the spec says a negative shift does to one day: the last `n`
hours are filled from the next day's first `n` hours, the rest is the
day's own hours shifted left. -/
def borrowDay (n : Nat) (cur next : Stat) : Stat :=
  { cur with
    hourly := cur.hourly.drop n ++ next.hourly.take n
    hourlyUnique := cur.hourlyUnique.drop n ++ next.hourlyUnique.take n }

/-- Concrete data for the C1 witness: a UTC+2 site and one path with two
days of 24-hour arrays. -/
def c1Site : Site := { tzOffsetMin := 120 }

def c1DayA : Stat :=
  { day := 100,
    hourly := [1, 2, 3, 4, 5, 6, 7, 8, 9, 10, 11, 12,
               13, 14, 15, 16, 17, 18, 19, 20, 21, 22, 23, 24],
    hourlyUnique := List.replicate 24 1 }

def c1DayB : Stat :=
  { day := 101, hourly := List.replicate 24 5, hourlyUnique := List.replicate 24 0 }

def c1Path : HitStat := { pathID := 7, path := "/x", stats := [c1DayA, c1DayB] }

/-- Concrete data for the C6 witness: three days, UTC+2 round trip keeps
the middle day intact. -/
def c6Path : HitStat := { pathID := 9, path := "/y", stats := [c1DayA, c1DayB, c1DayA] }

/-! ## fillBlankDays (unnamed source file part_000, lines 341-373) -/

/-- Go global `allDays`: a 24-element all-zero hour array. -/
def allDays : List Int := List.replicate 24 0

/-- The `Stat` that `fillBlankDays` substitutes for an absent day. -/
def blankStat (d : Int) : Stat := { day := d, hourly := allDays, hourlyUnique := allDays }

/-- Day formatting `t.Format("2006-01-02")` abstracted as the calendar-day number of a
time measured in minutes (floor division truncates to the day). -/
def dayOf (t : Int) : Int := t / 1440

/-- One path's loop of `fillBlankDays`: emit one entry per calendar day,
`steps + 1` days starting at day `d`, consuming the head of the (already
day-ascending) fetched `stats` exactly when its day matches — the Go
condition `len(hh[i].Stats)-1 >= j && dayFmt == hh[i].Stats[j].Day`.
The Go loop breaks on the day whose formatted string equals `end`'s, i.e.
day `d + steps`; the caller's `start.After(end)` guard makes that day
reachable, so the loop runs exactly `steps + 1` iterations and this
structural recursion is the loop. -/
def fillPath : Int → Nat → List Stat → List Stat
  | d, 0, [] => [blankStat d]
  | d, 0, s :: _ => [if s.day = d then s else blankStat d]
  | d, steps + 1, [] => blankStat d :: fillPath (d + 1) steps []
  | d, steps + 1, s :: tl =>
    if s.day = d then s :: fillPath (d + 1) steps tl
    else blankStat d :: fillPath (d + 1) steps (s :: tl)

/-- Embedding of `fillBlankDays(hh, start, end)`; `start.After(end)` is the guard that
makes a reversed range a no-op. -/
def fillBlankDays (hh : List HitStat) (start endT : Int) : List HitStat :=
  if endT < start then hh
  else hh.map fun p =>
    { p with stats := fillPath (dayOf start) (dayOf endT - dayOf start).toNat p.stats }

/-- The claim's description of blank-day filling: one `Stat` per calendar
day from `d` for `steps + 1` days, keeping the fetched entry for each
present day and substituting an all-zero blank for each absent day. -/
def expectedFill : Int → Nat → List Stat → List Stat
  | d, 0, stats => [(stats.find? fun s => s.day == d).getD (blankStat d)]
  | d, steps + 1, stats =>
    (stats.find? fun s => s.day == d).getD (blankStat d) :: expectedFill (d + 1) steps stats

def c5Day11 : Stat :=
  { day := 11, hourly := List.replicate 24 3, hourlyUnique := List.replicate 24 2 }

def c5Path : HitStat := { pathID := 4, path := "/z", stats := [c5Day11] }

/-- Concrete path with no day stats at all: `applyOffset` panics on it when
the rounded offset is non-zero (`stats[1:]` on an empty slice). -/
def c4Empty : HitStat := { pathID := 3, path := "/none", stats := [] }

/-! ## addTotals (part_000 lines 375-408) and the Totals/GetMax floor -/

/-- The inner hour loop of `addTotals` for one day: Go iterates `k` over
`Hourly`'s indices, accumulating the `Daily`/`DailyUnique` sums and, when
`daily` is false, the running max.  Go indexes `HourlyUnique[k]` with
`Hourly`'s index (both arrays always have 24 entries; were `HourlyUnique`
shorter Go would panic where this model reads 0). -/
def hourLoop (daily : Bool) : List Int → List Int → Int → Int → Int → Int × Int × Int
  | [], _, dSum, duSum, m => (dSum, duSum, m)
  | v :: vs, hu, dSum, duSum, m =>
    hourLoop daily vs hu.tail (dSum + v) (duSum + hu.headI)
      (if (!daily) = true ∧ m < v then v else m)

/-- One day of the `addTotals` per-path loop: update the day's sums, add
them into the running `Count`/`CountUnique`, and update `Max` (per-hour
when `!daily`, per-day-sum when `daily`). -/
def addTotalsStep (daily : Bool) (acc : List Stat × Int × Int × Int) (s : Stat) :
    List Stat × Int × Int × Int :=
  let z := hourLoop daily s.hourly s.hourlyUnique 0 0 acc.2.2.2
  let s' := { s with daily := s.daily + z.1, dailyUnique := s.dailyUnique + z.2.1 }
  let m' := if daily = true ∧ z.2.2 < s'.daily then s'.daily else z.2.2
  (acc.1 ++ [s'], acc.2.1 + s'.daily, acc.2.2.1 + s'.dailyUnique, m')

/-- One `hh[i]` iteration of `addTotals`. -/
def addTotalsPath (daily : Bool) (p : HitStat) : HitStat :=
  let folded := p.stats.foldl (addTotalsStep daily) ([], p.count, p.countUnique, p.statMax)
  { p with
    stats := folded.1
    count := folded.2.1
    countUnique := folded.2.2.1
    statMax := folded.2.2.2 }

def insertDesc (x : HitStat) : List HitStat → List HitStat
  | [] => [x]
  | y :: ys => if y.countUnique < x.countUnique then x :: y :: ys else y :: insertDesc x ys

/-- The final `sort.Slice(hh, CountUnique descending)` of `addTotals`.
Go's `sort.Slice` is unstable, so its result is only specified up to the
ordering predicate; this stable insertion sort is one of its admissible
outcomes and is the deterministic model used here. -/
def sortUniqueDesc : List HitStat → List HitStat
  | [] => []
  | x :: xs => insertDesc x (sortUniqueDesc xs)

/-- Embedding of `addTotals(hh, daily, &totalDisplay, &totalUniqueDisplay)`: update every
entry, accumulate the two displayed totals, and re-sort by descending
unique count.  Note: no floor of 10 anywhere. -/
def addTotals (hh : List HitStat) (daily : Bool) : List HitStat × Int × Int :=
  let hh' := hh.map (addTotalsPath daily)
  (sortUniqueDesc hh',
    hh'.foldl (fun a p => a + p.count) 0,
    hh'.foldl (fun a p => a + p.countUnique) 0)

/-- Lines 252-254 of `HitStat.Totals` (and the same step in `GetMax`):
`if max < 10 { max = 10 }`. -/
def totalsMaxFloor (m : Int) : Int := if m < 10 then 10 else m

/-- A 24-hour array with `v` in the 14:00 bucket, as in the repository's
own `TestHitStats`. -/
def c8Hour (v : Int) : List Int := List.replicate 14 0 ++ [v] ++ List.replicate 9 0

/-- The `/asd` entry of `TestHitStats`: count 2 at hour 14, 1 unique. -/
def c8Asd : HitStat :=
  { pathID := 1
    path := "/asd"
    title := "aSd"
    stats := [{ day := 18139, hourly := c8Hour 2, hourlyUnique := c8Hour 1 }] }

/-! ## ReindexStats / UpdateStats (src/cron, second file of hit_stat_test.go) -/

/-- One raw observation (Go struct `Hit`), restricted to the fields the
embedded code reads.  `createdDay` is `CreatedAt.Format("2006-01-02")`
abstracted as a day number; `path` is the byte-manipulated string, kept as
a character list. -/
structure Hit where
  site : Int := 0
  pathID : Int := 0
  path : List Char := []
  event : Bool := false
  title : String := ""
  location : String := ""
  bot : Int := 0
  firstVisit : Bool := false
  createdDay : Int := 0
  deriving Repr, DecidableEq

/-- The seven rollup tables `UpdateStats` runs, in its fixed order. -/
inductive AggTable
  | hitCounts | refCounts | hitStats | browserStats | systemStats | locationStats | sizeStats
  deriving Repr, DecidableEq

/-- One observable database action of the cron update path: an aggregator
invocation (with its reindex flag) or the `UpdateReceivedData` site flip.
An aggregator that never appears in the trace was not invoked and modified
no rollup table. -/
inductive CronEvent
  | agg (t : AggTable) (isReindex : Bool)
  | receivedData
  deriving Repr, DecidableEq

/-- The `funs` slice of `UpdateStats`. -/
def updateStatsFuns : List AggTable :=
  [.hitCounts, .refCounts, .hitStats, .browserStats, .systemStats, .locationStats, .sizeStats]

/-- The `for _, f := range funs` loop of `UpdateStats`: run the aggregators
in order, stopping at the first error; the trace records every invocation
made.  `runAgg t r` abstracts aggregator `t` applied to the batch with
reindex flag `r`. -/
def runAggs {E : Type} (runAgg : AggTable → Bool → Except E Unit) (isReindex : Bool) :
    List AggTable → List CronEvent → Except E Unit × List CronEvent
  | [], tr => (Except.ok (), tr)
  | t :: ts, tr =>
    match runAgg t isReindex with
    | Except.ok _ => runAggs runAgg isReindex ts (tr ++ [CronEvent.agg t isReindex])
    | Except.error e => (Except.error e, tr ++ [CronEvent.agg t isReindex])

/-- Embedding of `UpdateStats(ctx, &site, site.ID, hits, isReindex)` with database
effects abstracted; `updRD` is `site.UpdateReceivedData`, run only when
the site has not yet received data and all aggregators succeeded. -/
def UpdateStats {E : Type} (runAgg : AggTable → Bool → Except E Unit)
    (updRD : Except E Unit) (site : Site) (isReindex : Bool) :
    Except E Unit × List CronEvent :=
  match runAggs runAgg isReindex updateStatsFuns [] with
  | (Except.ok _, tr) =>
    if site.receivedData then (Except.ok (), tr)
    else (updRD, tr ++ [CronEvent.receivedData])
  | (Except.error e, tr) => (Except.error e, tr)

/-- The `switch t` of `ReindexStats`: which calls one table name causes.
An unrecognised name leaves `err` nil and does nothing. -/
def reindexSwitch {E : Type} (runAgg : AggTable → Bool → Except E Unit)
    (updRD : Except E Unit) (site : Site) (t : String) :
    Except E Unit × List CronEvent :=
  match t with
  | "all" => UpdateStats runAgg updRD site true
  | "hit_counts" => (runAgg .hitCounts true, [CronEvent.agg .hitCounts true])
  | "ref_counts" => (runAgg .refCounts true, [CronEvent.agg .refCounts true])
  | "hit_stats" => (runAgg .hitStats true, [CronEvent.agg .hitStats true])
  | "browser_stats" => (runAgg .browserStats true, [CronEvent.agg .browserStats true])
  | "system_stats" => (runAgg .systemStats true, [CronEvent.agg .systemStats true])
  | "location_stats" => (runAgg .locationStats true, [CronEvent.agg .locationStats true])
  | "size_stats" => (runAgg .sizeStats true, [CronEvent.agg .sizeStats true])
  | _ => (Except.ok (), [])

/-- Embedding of `ReindexStats(ctx, site, hits, tables)`: no-op unless the site is
active and the hit set is non-empty; otherwise run the switch for each
requested table, returning at the first error. -/
def ReindexStats {E : Type} (runAgg : AggTable → Bool → Except E Unit)
    (updRD : Except E Unit) (site : Site) (hits : List Hit) (tables : List String) :
    Except E Unit × List CronEvent :=
  if site.state ≠ StateActive then (Except.ok (), [])
  else if hits.length = 0 then (Except.ok (), [])
  else
    tables.foldl
      (fun acc t =>
        match acc.1 with
        | Except.error e => (Except.error e, acc.2)
        | Except.ok _ =>
          let r := reindexSwitch runAgg updRD site t
          (r.1, acc.2 ++ r.2))
      (Except.ok (), [])

/-! ## updateLocationStats (src/cron/location_stat.go) -/

/-- A `location_stats` row key: `(site_id, day, location, path_id)`. -/
abbrev LocRowKey := Int × Int × String × Int

/-- The `location_stats` table, passed in and out explicitly: rows
`key ↦ (count, count_unique)`. -/
abbrev LocTable := List (LocRowKey × (Int × Int))

/-- The Go `gt` struct of `updateLocationStats` (zero value = all fields
zero/empty, as for a missing map key). -/
structure LocGroup where
  count : Int := 0
  countUnique : Int := 0
  day : Int := 0
  location : String := ""
  pathID : Int := 0
  deriving Repr, DecidableEq

/-- The map key `k := day + h.Location + strconv.FormatInt(h.PathID, 10)`.
The day part of the Go key is the fixed-width `"2006-01-02"` prefix, so
two Go keys are equal iff their day numbers and their
`location ++ decimal(pathID)` suffixes are; the key is modelled as that
pair.  Note the suffix concatenation is not injective in (location,
pathID): e.g. ("a1", 2) and ("a", 12) both give "a12". -/
def locKey (h : Hit) : Int × String := (h.createdDay, h.location ++ toString h.pathID)

/-- The `(site, day, location, path)` tuple the fetch/delete round-trip of
a group uses, taken from the hit being processed. -/
def groupRowKey (h : Hit) : LocRowKey := (h.site, h.createdDay, h.location, h.pathID)

/-- Go map read `v := grouped[k]` (zero value when absent). -/
def getGroup : List ((Int × String) × LocGroup) → (Int × String) → LocGroup
  | [], _ => {}
  | (k', v) :: rest, k => if k' = k then v else getGroup rest k

/-- Go map write `grouped[k] = v`; an association list in first-insertion
order is the deterministic model of the map (one admissible iteration
order of the final `range grouped`). -/
def setGroup : List ((Int × String) × LocGroup) → (Int × String) → LocGroup →
    List ((Int × String) × LocGroup)
  | [], k, v => [(k, v)]
  | (k', v') :: rest, k, v =>
    if k' = k then (k, v) :: rest else (k', v') :: setGroup rest k v

/-- Query `select count, count_unique from location_stats where site_id=$1 and
day=$2 and location=$3 and path_id=$4 limit 1`. -/
def lookupRow (tbl : LocTable) (k : LocRowKey) : Option (Int × Int) :=
  (tbl.find? fun r => r.1 = k).map (·.2)

/-- Statement `delete from location_stats where site_id=$1 and day=$2 and ...`. -/
def deleteRow (tbl : LocTable) (k : LocRowKey) : LocTable :=
  tbl.filter fun r => ¬ r.1 = k

/-- The fold state of the `for _, h := range hits` loop: the `grouped` map,
the live `location_stats` table, and the row keys deleted so far. -/
structure LocState where
  grouped : List ((Int × String) × LocGroup) := []
  tbl : LocTable
  deleted : List LocRowKey := []
  deriving Repr, DecidableEq

/-- One iteration of the `updateLocationStats` hit loop: skip bot hits
(`h.Bot > 0`), read the group, on first sight (count 0) record the hit's
day/location/path and, unless reindexing, take the counts of the existing
row for the hit's `(site, day, location, path)` key as starting point and
delete that row (`existingLocationStats`); then add 1 to count, 1 to
count_unique for a first visit, and store the group back. -/
def locStep (isReindex : Bool) (st : LocState) (h : Hit) : LocState :=
  if h.bot > 0 then st
  else
    let k := locKey h
    let v0 := getGroup st.grouped k
    let fetched :=
      if v0.count = 0 then
        let v1 := { v0 with day := h.createdDay, location := h.location, pathID := h.pathID }
        if isReindex then (v1, st.tbl, st.deleted)
        else
          let rk := groupRowKey h
          let e :=
            match lookupRow st.tbl rk with
            | none => ((0, 0), st.tbl, st.deleted)
            | some c => (c, deleteRow st.tbl rk, st.deleted ++ [rk])
          ({ v1 with count := e.1.1, countUnique := e.1.2 }, e.2.1, e.2.2)
      else (v0, st.tbl, st.deleted)
    let v := { fetched.1 with
      count := fetched.1.count + 1
      countUnique := fetched.1.countUnique + if h.firstVisit then 1 else 0 }
    { grouped := setGroup st.grouped k v, tbl := fetched.2.1, deleted := fetched.2.2 }

/-- Embedding of `updateLocationStats(ctx, hits, isReindex)`: fold the batch, then
bulk-insert one row per group — `ins.Values(siteID, v.day, v.pathID,
v.location, v.count, v.countUnique)` with the *context* site's ID —
returning the insert rows (in the modelled map order) and the final
table/deletion state. -/
def updateLocationStats (ctxSiteID : Int) (tbl : LocTable) (hits : List Hit)
    (isReindex : Bool) : List (Int × Int × Int × String × Int × Int) × LocState :=
  let st := hits.foldl (locStep isReindex) { tbl := tbl }
  (st.grouped.map fun kv =>
      (ctxSiteID, kv.2.day, kv.2.pathID, kv.2.location, kv.2.count, kv.2.countUnique),
    st)

/-- Counted (non-bot) hits: Go skips exactly `h.Bot > 0`. -/
def keptHit (h : Hit) : Bool := !decide (h.bot > 0)

/-- The group keys of a batch in first-occurrence order (no duplicates). -/
def firstKeys : List Hit → List (Int × String)
  | [] => []
  | h :: t =>
    if keptHit h then locKey h :: (firstKeys t).filter fun k' => ¬ k' = locKey h
    else firstKeys t

/-- Number of counted hits of group `k`. -/
def cntKey (hits : List Hit) (k : Int × String) : Int :=
  ((hits.filter fun h => keptHit h && decide (locKey h = k)).length : Int)

/-- Number of counted first-visit hits of group `k`. -/
def uniqKey (hits : List Hit) (k : Int × String) : Int :=
  ((hits.filter fun h => (keptHit h && decide (locKey h = k)) && h.firstVisit).length : Int)

/-- The first counted hit of group `k`: the hit whose day/location/path the
inserted row carries and whose row key is fetched and deleted. -/
def firstHitOf (hits : List Hit) (k : Int × String) : Hit :=
  ((hits.find? fun h => keptHit h && decide (locKey h = k)).getD {})

/-- The expected final value of group `k`: the existing row's counts (if
any) plus the per-group sums. -/
def freshGroup (tbl : LocTable) (hits : List Hit) (k : Int × String) : LocGroup :=
  let fh := firstHitOf hits k
  let base := (lookupRow tbl (groupRowKey fh)).getD (0, 0)
  { day := fh.createdDay
    location := fh.location
    pathID := fh.pathID
    count := base.1 + cntKey hits k
    countUnique := base.2 + uniqKey hits k }

/-- The row keys fetched (and, when present, deleted) by an incremental
run: one per group, from the group's first counted hit. -/
def newTuples (hits : List Hit) : List LocRowKey :=
  (firstKeys hits).map fun k => groupRowKey (firstHitOf hits k)

/-- Expected final grouped map of an incremental run from an empty map. -/
def locGroupedSpec (tbl : LocTable) (hits : List Hit) :
    List ((Int × String) × LocGroup) :=
  (firstKeys hits).map fun k => (k, freshGroup tbl hits k)

/-- Expected final table: every group's fetched row deleted. -/
def locTblSpec (tbl : LocTable) (hits : List Hit) : LocTable :=
  tbl.filter fun r => ¬ r.1 ∈ newTuples hits

/-- Expected deletions: the fetched row keys that were actually present. -/
def locDelSpec (tbl : LocTable) (hits : List Hit) : List LocRowKey :=
  (newTuples hits).filter fun rk => (lookupRow tbl rk).isSome

/-- What C3 claims the grouping key is: the `(day, location, pathID)`
tuple, with every non-zero bot code skipped.  (Modelled from the claim's
words, for refutation.) -/
def claimTupleKeys : List Hit → List (Int × String × Int)
  | [] => []
  | h :: t =>
    if h.bot = 0 then
      (h.createdDay, h.location, h.pathID) ::
        (claimTupleKeys t).filter fun u => ¬ u = (h.createdDay, h.location, h.pathID)
    else claimTupleKeys t

/-- The insert rows C3 claims for a batch with no pre-existing rows: one
row per `(day, location, pathID)` tuple among the zero-bot hits, counting
1 per hit and 1 per first-visit hit.  (Modelled from the claim's words,
for refutation.) -/
def claimLocationRows (ctxSiteID : Int) (hits : List Hit) :
    List (Int × Int × Int × String × Int × Int) :=
  (claimTupleKeys hits).map fun u =>
    (ctxSiteID, u.1, u.2.2, u.2.1,
      ((hits.filter fun h =>
        decide (h.bot = 0) && decide ((h.createdDay, h.location, h.pathID) = u)).length : Int),
      ((hits.filter fun h =>
        (decide (h.bot = 0) && decide ((h.createdDay, h.location, h.pathID) = u)) &&
          h.firstVisit).length : Int))

def c3Hits : List Hit :=
  [{ site := 1, pathID := 2, location := "a1", firstVisit := true, createdDay := 18000 },
   { site := 1, pathID := 12, location := "a", createdDay := 18000 },
   { site := 1, pathID := 3, location := "b", bot := -1, createdDay := 18000 }]

def c3wTbl : LocTable := [((1, 18000, "NL", 5), (3, 2))]

def c3wHits : List Hit :=
  [{ site := 1, pathID := 5, location := "NL", firstVisit := true, createdDay := 18000 },
   { site := 1, pathID := 5, location := "NL", createdDay := 18000 },
   { site := 1, pathID := 9, location := "DE", bot := 2, createdDay := 18000 }]

/-! ## Hit.cleanPath (src/export.go lines 525-601) -/

/-- Go `strings.TrimSpace`. -/
def trimSpace (s : List Char) : List Char :=
  ((s.dropWhile Char.isWhitespace).reverse.dropWhile Char.isWhitespace).reverse

/-- Go `strings.TrimLeft(s, "/")`. -/
def trimLeftSlash (s : List Char) : List Char := s.dropWhile fun c => c = '/'

/-- Go `strings.Trim(s, "/")`. -/
def trimSlash (s : List Char) : List Char :=
  ((s.dropWhile fun c => c = '/').reverse.dropWhile fun c => c = '/').reverse

/-- Go `strings.TrimRight(s, "?&")`. -/
def trimRightQA (s : List Char) : List Char :=
  (s.reverse.dropWhile fun c => c = '?' ∨ c = '&').reverse

/-- Go string slicing `s[i:]` (byte index; ASCII model, where byte and
character positions coincide): panics when `i > len(s)`. -/
def goSliceFrom (s : List Char) (i : Nat) : Option (List Char) :=
  if i ≤ s.length then some (s.drop i) else none

/-- The offline-reader marker
`/storage/emulated/0/Android/data/jonas.tool.saveForOffline/files/`
(65 bytes, so the guarded `h.Path[65:]` cannot panic). -/
def storagePat : List Char :=
  "/storage/emulated/0/Android/data/jonas.tool.saveForOffline/files/".toList

/-- The Internet-archive marker `/web/20` (7 bytes — but the code slices
`h.Path[20:]` without checking the length). -/
def webPat : List Char := "/web/20".toList

/-- The tail of `cleanPath`: strip trailing `?`/`&`; if no `?` remains,
done; otherwise run the remove-tracking-parameters block
(`url.Parse` + `q.Del(...)` + re-encode), abstracted as `stripTracking`
(`none` = parse error, path kept unchanged). -/
def finishTracking (stripTracking : List Char → Option (List Char))
    (p : List Char) : Option (List Char) :=
  let p := trimRightQA p
  if ¬ p.contains '?' then some p
  else
    match stripTracking p with
    | none => some p
    | some p2 => some p2

/-- Embedding of `Hit.cleanPath`.  The two `net/url` uses are abstracted as external
collaborators: `archParse rest` models `url.Parse(h.Path[20:])` plus
reading `u.Path` and `u.Query().Encode()` (`none` = parse error, path
kept).  The result is `none` exactly where the Go code panics: slicing
`h.Path[20:]` when the normalized path is shorter than 20 bytes. -/
def cleanPath (archParse : List Char → Option (List Char × List Char))
    (stripTracking : List Char → Option (List Char))
    (event : Bool) (path0 : List Char) : Option (List Char) :=
  let p := trimSpace path0
  if event then some (trimLeftSlash p)
  else if p = [] then some p
  else
    let p := '/' :: trimSlash p
    let pOpt :=
      if storagePat.isPrefixOf p then
        (goSliceFrom p 65).map fun p1 =>
          match p1.findIdx? fun c => c = '/' with
          | some s => p1.drop s
          | none => p1
      else some p
    match pOpt with
    | none => none
    | some p =>
      if webPat.isPrefixOf p then
        match goSliceFrom p 20 with
        | none => none
        | some rest =>
          let p :=
            match archParse rest with
            | none => p
            | some (up, q) =>
              let up := if up = [] then ['/'] else up
              if q = [] then up else up ++ '?' :: q
          finishTracking stripTracking p
      else finishTracking stripTracking p

/-! ## Theorems -/

theorem neg_tmod_eq (a b : Int) : (-a).tmod b = -(a.tmod b) := by
  rw [Int.tmod_def, Int.tmod_def, Int.neg_tdiv]; ring

/-- C7 counterexample: a site offset of -45 minutes is rounded by the code to
0 whole hours, while the nearest whole hour is -1 (distance 15 min vs 45
min).  Go's `/` truncates towards zero, so after the `+30` nudge the code
rounds negative non-half-hour offsets towards zero, not to nearest. -/
theorem C7_rounding_counterexample :
    offsetHours (-45) = 0 ∧ roundNearestHourUp (-45) = -1 := by decide

/-- C7, amended: for every non-negative offset in minutes, and for every
offset that is a whole multiple of 30 minutes (which covers every real-world
timezone), the whole-hour shift computed by `applyOffset` equals the offset
rounded to the nearest hour with exact half-hours rounding up.  (For negative
offsets that are not multiples of 30 the code instead truncates `(m+30)/60`
towards zero, e.g. -45 min gives 0 rather than -1.) -/
theorem C7_rounding_amended (m : Int) (h : 0 ≤ m ∨ (30 : Int) ∣ m) :
    offsetHours m = roundNearestHourUp m := by
  unfold offsetHours roundNearestHourUp
  rw [Int.fdiv_eq_ediv _ (by norm_num)]
  rcases h with hm | ⟨k, rfl⟩
  · by_cases hc : Int.tmod m 60 = 0
    · simp only [hc, ne_eq, not_true_eq_false, if_false]
      rw [Int.tdiv_eq_ediv hm (by norm_num)]
      rw [Int.tmod_eq_emod hm (by norm_num)] at hc
      omega
    · simp only [ne_eq, hc, not_false_eq_true, if_true]
      rw [Int.tdiv_eq_ediv (by omega) (by norm_num)]
  · rcases Int.even_or_odd k with ⟨j, hj⟩ | ⟨j, hj⟩
    · subst hj
      have h60 : (30 : Int) * (j + j) = 60 * j := by ring
      rw [h60]
      have ht : Int.tmod (60 * j) 60 = 0 := by
        rw [Int.tmod_def, Int.mul_tdiv_cancel_left _ (by norm_num)]; ring
      simp only [ht, ne_eq, not_true_eq_false, if_false]
      rw [Int.mul_tdiv_cancel_left _ (by norm_num)]
      omega
    · subst hj
      have h60 : (30 : Int) * (2 * j + 1) = 60 * j + 30 := by ring
      rw [h60]
      have ht : Int.tmod (60 * j + 30) 60 ≠ 0 := by
        intro h0
        rw [Int.tmod_def] at h0
        omega
      simp only [ne_eq, ht, not_false_eq_true, if_true]
      have h61 : (60 * j + 30 + 30 : Int) = 60 * (j + 1) := by ring
      rw [h61, Int.mul_tdiv_cancel_left _ (by norm_num)]
      omega

theorem C7_rounding_amended_witness :
    offsetHours (-90) = roundNearestHourUp (-90) :=
  C7_rounding_amended (-90) (Or.inr ⟨-3, by norm_num⟩)

theorem shiftForward_spec (n : Nat) (hn : n ≤ 24) :
    ∀ (days : List Stat) (p pu : List Int), p.length = n → pu.length = n →
    (∀ s ∈ days, s.hourly.length = 24 ∧ s.hourlyUnique.length = 24) →
    shiftForward n p pu days =
      List.zipWith (backfillDay n)
        ({ day := 0, hourly := List.replicate (24 - n) 0 ++ p,
           hourlyUnique := List.replicate (24 - n) 0 ++ pu } :: days) days := by
  intro days
  induction days with
  | nil => intro p pu _ _ _; rfl
  | cons s rest ih =>
    intro p pu hp hpu hlen
    obtain ⟨hs1, hs2⟩ := hlen s (List.mem_cons_self ..)
    have hrest := fun x hx => hlen x (List.mem_cons_of_mem _ hx)
    have ho : (p ++ s.hourly).length - n = 24 := by
      simp [List.length_append, hp, hs1]
    have htk : (p ++ s.hourly).take 24 = p ++ s.hourly.take (24 - n) := by
      rw [List.take_append_eq_append_take, List.take_of_length_le (by omega), hp]
    have hdr : (p ++ s.hourly).drop 24 = s.hourly.drop (24 - n) := by
      rw [List.drop_append_eq_append_drop, List.drop_of_length_le (by omega), hp]
      simp
    have htk' : (pu ++ s.hourlyUnique).take 24 = pu ++ s.hourlyUnique.take (24 - n) := by
      rw [List.take_append_eq_append_take, List.take_of_length_le (by omega), hpu]
    have hdr' : (pu ++ s.hourlyUnique).drop 24 = s.hourlyUnique.drop (24 - n) := by
      rw [List.drop_append_eq_append_drop, List.drop_of_length_le (by omega), hpu]
      simp
    have hp' : (s.hourly.drop (24 - n)).length = n := by
      rw [List.length_drop, hs1]; omega
    have hpu' : (s.hourlyUnique.drop (24 - n)).length = n := by
      rw [List.length_drop, hs2]; omega
    have hgh : ∀ (q : List Int), q.length = n →
        (List.replicate (24 - n) (0 : Int) ++ q).drop (24 - n) = q := by
      intro q _
      have := List.drop_left (List.replicate (24 - n) (0 : Int)) q
      rwa [List.length_replicate] at this
    simp only [shiftForward]
    rw [ho, htk, hdr, htk', hdr', ih _ _ hp' hpu' hrest]
    simp only [List.zipWith_cons_cons]
    refine congrArg₂ _ ?_ ?_
    · simp only [backfillDay, hgh p hp, hgh pu hpu]
    · cases rest with
      | nil => rfl
      | cons r rr =>
        simp only [List.zipWith_cons_cons]
        refine congrArg₂ _ ?_ rfl
        simp only [backfillDay, hgh _ hp', hgh _ hpu']

theorem shiftBackward_spec (n : Nat) (hn : n ≤ 24) :
    ∀ (days : List Stat) (p pu : List Int), p.length = n → pu.length = n →
    (∀ s ∈ days, s.hourly.length = 24 ∧ s.hourlyUnique.length = 24) →
    shiftBackward n days p pu =
      (List.zipWith (borrowDay n) days
         (days.tail ++ [{ day := 0, hourly := p ++ List.replicate (24 - n) 0,
                          hourlyUnique := pu ++ List.replicate (24 - n) 0 }]),
       ((days.head?.map fun s => s.hourly.take n).getD p),
       ((days.head?.map fun s => s.hourlyUnique.take n).getD pu)) := by
  intro days
  induction days with
  | nil => intro p pu _ _ _; rfl
  | cons s rest ih =>
    intro p pu hp hpu hlen
    obtain ⟨hs1, hs2⟩ := hlen s (List.mem_cons_self ..)
    have hrest := fun x hx => hlen x (List.mem_cons_of_mem _ hx)
    have hdr : ∀ (l tl : List Int), l.length = 24 → (l ++ tl).drop n = l.drop n ++ tl := by
      intro l tl hl
      rw [List.drop_append_of_le_length (by omega)]
    have htk : ∀ (l tl : List Int), l.length = 24 → (l ++ tl).take n = l.take n := by
      intro l tl hl
      rw [List.take_append_of_le_length (by omega)]
    have htkp : ∀ (q : List Int), q.length = n →
        (q ++ List.replicate (24 - n) (0 : Int)).take n = q := by
      intro q hq
      have := List.take_left q (List.replicate (24 - n) (0 : Int))
      rwa [hq] at this
    simp only [shiftBackward]
    rw [ih p pu hp hpu hrest]
    cases rest with
    | nil =>
      simp only [List.zipWith_nil_left, List.head?_nil, Option.map_none, Option.getD_none,
        List.tail_nil, List.nil_append, List.head?_cons, Option.map_some, Option.getD_some,
        List.tail_cons, List.zipWith_cons_cons, List.zipWith_nil_right]
      refine congrArg₂ Prod.mk ?_ (congrArg₂ Prod.mk ?_ ?_)
      · refine congrArg₂ _ ?_ rfl
        simp only [borrowDay, htkp p hp, htkp pu hpu, hdr _ _ hs1, hdr _ _ hs2,
          Option.map_none', Option.map_some', Option.getD_none, Option.getD_some]
      · exact htk _ _ hs1
      · exact htk _ _ hs2
    | cons r rr =>
      simp only [List.head?_cons, Option.map_some, Option.getD_some, List.tail_cons,
        List.cons_append, List.zipWith_cons_cons]
      refine congrArg₂ Prod.mk ?_ (congrArg₂ Prod.mk ?_ ?_)
      · refine congrArg₂ _ ?_ rfl
        simp only [borrowDay, hdr _ _ hs1, hdr _ _ hs2,
          Option.map_none', Option.map_some', Option.getD_none, Option.getD_some]
      · exact htk _ _ hs1
      · exact htk _ _ hs2

theorem mapM_option_eq_map {α β : Type} (f : α → Option β) (g : α → β) :
    ∀ (l : List α), (∀ x ∈ l, f x = some (g x)) → l.mapM f = some (l.map g) := by
  intro l
  induction l with
  | nil => intro _; rfl
  | cons x xs ih =>
    intro h
    rw [List.mapM_cons, h x (List.mem_cons_self ..),
      ih (fun y hy => h y (List.mem_cons_of_mem _ hy))]
    rfl

theorem goDropLast_of_ne_nil (l : List Stat) (h : l ≠ []) :
    goDropLast l = some l.dropLast := by
  cases l with
  | nil => exact absurd rfl h
  | cons => rfl

theorem dropLast_zipWith_tail (f : Stat → Stat → Stat) (g : Stat) :
    ∀ (days : List Stat),
    (List.zipWith f days (days.tail ++ [g])).dropLast = List.zipWith f days days.tail := by
  intro days
  induction days with
  | nil => rfl
  | cons s rest ih =>
    cases rest with
    | nil => rfl
    | cons r rr =>
      simp only [List.tail_cons, List.cons_append, List.zipWith_cons_cons] at ih ⊢
      rw [List.dropLast_cons_of_ne_nil, ih]
      cases rr <;> simp [List.zipWith]

theorem applyOffsetHours_pos (N : Int) (h0 : 0 < N) (hN : N ≤ 24) (hh : List HitStat)
    (hne : ∀ p ∈ hh, p.stats ≠ [])
    (hlen : ∀ p ∈ hh, ∀ s ∈ p.stats, s.hourly.length = 24 ∧ s.hourlyUnique.length = 24) :
    applyOffsetHours N hh =
      some (hh.map fun p =>
        { p with stats := List.zipWith (backfillDay N.toNat) p.stats p.stats.tail }) := by
  unfold applyOffsetHours
  rw [if_pos h0]
  refine mapM_option_eq_map _ _ hh fun p hp => ?_
  rw [shiftForward_spec N.toNat (by omega) p.stats _ _ (List.length_replicate ..)
    (List.length_replicate ..) (hlen p hp)]
  cases hst : p.stats with
  | nil => exact absurd hst (hne p hp)
  | cons s rest =>
    simp only [List.zipWith_cons_cons, goTail, List.tail_cons]
    rfl

theorem applyOffsetHours_neg (N : Int) (h0 : N < 0) (hN : -24 ≤ N) (hh : List HitStat)
    (hne : ∀ p ∈ hh, p.stats ≠ [])
    (hlen : ∀ p ∈ hh, ∀ s ∈ p.stats, s.hourly.length = 24 ∧ s.hourlyUnique.length = 24) :
    applyOffsetHours N hh =
      some (hh.map fun p =>
        { p with stats := List.zipWith (borrowDay N.natAbs) p.stats p.stats.tail }) := by
  unfold applyOffsetHours
  rw [if_neg (by omega), if_pos h0]
  refine mapM_option_eq_map _ _ hh fun p hp => ?_
  have hna : (-N).toNat = N.natAbs := by omega
  rw [hna, shiftBackward_spec N.natAbs (by omega) p.stats _ _ (List.length_replicate ..)
    (List.length_replicate ..) (hlen p hp)]
  have hzne : p.stats ≠ [] := hne p hp
  rw [goDropLast_of_ne_nil _ (by
    cases hst : p.stats with
    | nil => exact absurd hst hzne
    | cons s rest => cases rest <;> simp [List.zipWith])]
  rw [dropLast_zipWith_tail]
  rfl

/-- C1: for a site whose UTC offset rounds to `N` whole hours and per-path
day `Stat` lists made of (nonempty lists of) 24-element hour arrays,
`applyOffset`:
* for `N > 0` replaces each day by its previous day's last `N` hours
  followed by its own first `24-N` hours (`backfillDay`) and drops the
  first day of each path;
* for `N < 0` replaces each day by its own hours shifted left `|N|` and
  the next day's first `|N|` hours (`borrowDay`) and drops the last day;
* for `N = 0` leaves every path's `Stats` unchanged.
(`zipWith f stats stats.tail` is simultaneously the shift of each surviving
day from its neighbour and the drop of the boundary day.) -/
theorem C1_applyOffset_shift (site : Site) (N : Int) (hh : List HitStat)
    (hoff : offsetHours site.tzOffsetMin = N) (hN : N.natAbs ≤ 24)
    (hne : ∀ p ∈ hh, p.stats ≠ [])
    (hlen : ∀ p ∈ hh, ∀ s ∈ p.stats, s.hourly.length = 24 ∧ s.hourlyUnique.length = 24) :
    applyOffset hh site =
      some (hh.map fun p =>
        { p with stats :=
            if 0 < N then List.zipWith (backfillDay N.toNat) p.stats p.stats.tail
            else if N < 0 then List.zipWith (borrowDay N.natAbs) p.stats p.stats.tail
            else p.stats }) := by
  unfold applyOffset
  by_cases hemp : hh.length = 0
  · rw [if_pos hemp]
    cases hh with
    | nil => rfl
    | cons => simp at hemp
  · rw [if_neg hemp, hoff]
    rcases lt_trichotomy 0 N with h | h | h
    · rw [applyOffsetHours_pos N h (by omega) hh hne hlen]
      simp only [if_pos h]
    · subst h
      simp only [lt_irrefl, if_false]
      have h1 : (fun (p : HitStat) => { p with stats := p.stats }) = fun p => p := rfl
      rw [h1, List.map_id']
      rfl
    · rw [applyOffsetHours_neg N h (by omega) hh hne hlen]
      simp only [if_neg (by omega : ¬ 0 < N), if_pos h]

theorem C1_applyOffset_shift_witness :
    applyOffset [c1Path] c1Site =
      some [{ c1Path with stats :=
        [{ day := 101, hourly := [23, 24] ++ List.replicate 22 5,
           hourlyUnique := [1, 1] ++ List.replicate 22 0 }] }] := by
  have h := C1_applyOffset_shift c1Site 2 [c1Path] (by decide) (by decide)
    (by decide) (by decide)
  rw [h]; decide

theorem drop_append_len {α : Type} (m : Nat) (l1 l2 : List α) (h : l1.length = m) :
    (l1 ++ l2).drop m = l2 := by
  subst h; exact List.drop_left _ _

theorem take_append_len {α : Type} (m : Nat) (l1 l2 : List α) (h : l1.length = m) :
    (l1 ++ l2).take m = l1 := by
  subst h; exact List.take_left _ _

theorem borrow_backfill (n : Nat) (hn : n ≤ 24) (a b c : Stat)
    (ha1 : a.hourly.length = 24) (ha2 : a.hourlyUnique.length = 24)
    (hb1 : b.hourly.length = 24) (hb2 : b.hourlyUnique.length = 24) :
    borrowDay n (backfillDay n a b) (backfillDay n b c) = b := by
  simp only [borrowDay, backfillDay]
  rw [drop_append_len n (a.hourly.drop (24 - n)) _ (by rw [List.length_drop, ha1]; omega),
    take_append_len n (b.hourly.drop (24 - n)) _ (by rw [List.length_drop, hb1]; omega),
    List.take_append_drop,
    drop_append_len n (a.hourlyUnique.drop (24 - n)) _ (by rw [List.length_drop, ha2]; omega),
    take_append_len n (b.hourlyUnique.drop (24 - n)) _ (by rw [List.length_drop, hb2]; omega),
    List.take_append_drop]

theorem backfill_borrow (n : Nat) (hn : n ≤ 24) (a b c : Stat)
    (ha1 : a.hourly.length = 24) (ha2 : a.hourlyUnique.length = 24)
    (hb1 : b.hourly.length = 24) (hb2 : b.hourlyUnique.length = 24) :
    backfillDay n (borrowDay n a b) (borrowDay n b c) = b := by
  simp only [borrowDay, backfillDay]
  rw [drop_append_len (24 - n) (a.hourly.drop n) _ (by rw [List.length_drop, ha1]),
    take_append_len (24 - n) (b.hourly.drop n) _ (by rw [List.length_drop, hb1]),
    List.take_append_drop,
    drop_append_len (24 - n) (a.hourlyUnique.drop n) _ (by rw [List.length_drop, ha2]),
    take_append_len (24 - n) (b.hourlyUnique.drop n) _ (by rw [List.length_drop, hb2]),
    List.take_append_drop]

theorem zipWith_shift_twice (f g : Stat → Stat → Stat) :
    ∀ (d : List Stat), (∀ a ∈ d, ∀ b ∈ d, ∀ c ∈ d, g (f a b) (f b c) = b) →
    List.zipWith g (List.zipWith f d d.tail) (List.zipWith f d d.tail).tail =
      d.tail.dropLast := by
  intro d
  induction d with
  | nil => intro _; rfl
  | cons s rest ih =>
    intro hpt
    cases rest with
    | nil => rfl
    | cons r rr =>
      cases rr with
      | nil => rfl
      | cons t tt =>
        have hmem : ∀ x ∈ r :: t :: tt, x ∈ s :: r :: t :: tt :=
          fun x hx => List.mem_cons_of_mem _ hx
        simp only [List.tail_cons, List.zipWith_cons_cons]
        rw [hpt s (by simp) r (by simp) t (by simp)]
        have ihx := ih (fun a ha b hb c hc => hpt a (hmem a ha) b (hmem b hb) c (hmem c hc))
        simp only [List.tail_cons, List.zipWith_cons_cons] at ihx
        rw [ihx]
        rfl

theorem zipWith_stat24 (f : Stat → Stat → Stat)
    (hf : ∀ a b, a.hourly.length = 24 → a.hourlyUnique.length = 24 →
      b.hourly.length = 24 → b.hourlyUnique.length = 24 →
      (f a b).hourly.length = 24 ∧ (f a b).hourlyUnique.length = 24) :
    ∀ (l l' : List Stat), (∀ a ∈ l, a.hourly.length = 24 ∧ a.hourlyUnique.length = 24) →
    (∀ b ∈ l', b.hourly.length = 24 ∧ b.hourlyUnique.length = 24) →
    ∀ x ∈ List.zipWith f l l', x.hourly.length = 24 ∧ x.hourlyUnique.length = 24 := by
  intro l
  induction l with
  | nil => intro l' _ _ x hx; simp at hx
  | cons a l2 ih =>
    intro l' hl hl' x hx
    cases l' with
    | nil => simp at hx
    | cons b l'2 =>
      rw [List.zipWith_cons_cons] at hx
      rcases List.mem_cons.mp hx with rfl | hx2
      · obtain ⟨h1, h2⟩ := hl a (by simp)
        obtain ⟨h3, h4⟩ := hl' b (by simp)
        exact hf a b h1 h2 h3 h4
      · exact ih l'2 (fun u hu => hl u (List.mem_cons_of_mem _ hu))
          (fun u hu => hl' u (List.mem_cons_of_mem _ hu)) x hx2

theorem backfillDay_stat24 (n : Nat) (hn : n ≤ 24) :
    ∀ a b : Stat, a.hourly.length = 24 → a.hourlyUnique.length = 24 →
      b.hourly.length = 24 → b.hourlyUnique.length = 24 →
      (backfillDay n a b).hourly.length = 24 ∧ (backfillDay n a b).hourlyUnique.length = 24 := by
  intro a b h1 h2 h3 h4
  simp only [backfillDay, List.length_append, List.length_drop, List.length_take,
    h1, h2, h3, h4]
  omega

theorem borrowDay_stat24 (n : Nat) (hn : n ≤ 24) :
    ∀ a b : Stat, a.hourly.length = 24 → a.hourlyUnique.length = 24 →
      b.hourly.length = 24 → b.hourlyUnique.length = 24 →
      (borrowDay n a b).hourly.length = 24 ∧ (borrowDay n a b).hourlyUnique.length = 24 := by
  intro a b h1 h2 h3 h4
  simp only [borrowDay, List.length_append, List.length_drop, List.length_take,
    h1, h2, h3, h4]
  omega

theorem offsetHours_mul60 (m : Int) : offsetHours (60 * m) = m := by
  unfold offsetHours
  have ht : Int.tmod (60 * m) 60 = 0 := by
    rw [Int.tmod_def, Int.mul_tdiv_cancel_left _ (by norm_num)]; ring
  simp only [ht, ne_eq, not_true_eq_false, if_false]
  exact Int.mul_tdiv_cancel_left _ (by norm_num)

theorem applyOffset_eq (hh : List HitStat) (site : Site) (h : hh.length ≠ 0) :
    applyOffset hh site = applyOffsetHours (offsetHours site.tzOffsetMin) hh := by
  unfold applyOffset
  rw [if_neg h]

theorem applyOffset_of_zero (hh : List HitStat) (site : Site)
    (h : offsetHours site.tzOffsetMin = 0) : applyOffset hh site = some hh := by
  unfold applyOffset
  rw [h]
  split
  · rfl
  · simp [applyOffsetHours]

/-- C6: applying the timezone shift with a whole-hour offset `O` (site
offset `60*O` minutes) and then with `-O` succeeds and returns, on every
day that survives both applications, exactly the original day's `Hourly`
and `HourlyUnique` arrays: one boundary day is dropped by each
application, so each path keeps `stats.tail.dropLast` unchanged (and for
`O = 0` both applications are no-ops). -/
theorem C6_offset_roundtrip (O : Int) (hO : O.natAbs ≤ 12) (hh : List HitStat)
    (hcnt : ∀ p ∈ hh, 2 ≤ p.stats.length)
    (hlen : ∀ p ∈ hh, ∀ s ∈ p.stats, s.hourly.length = 24 ∧ s.hourlyUnique.length = 24) :
    (applyOffset hh { tzOffsetMin := 60 * O }).bind
        (fun hh1 => applyOffset hh1 { tzOffsetMin := 60 * -O }) =
      some (hh.map fun p =>
        { p with stats := if O = 0 then p.stats else p.stats.tail.dropLast }) := by
  have hne : ∀ p ∈ hh, p.stats ≠ [] := by
    intro p hp hc
    have := hcnt p hp
    rw [hc] at this
    simp at this
  rcases lt_trichotomy O 0 with hneg | rfl | hpos
  · -- O < 0: borrow then backfill
    cases hh with
    | nil => simp [applyOffset]
    | cons q qs =>
      rw [applyOffset_eq _ _ (by simp)]
      rw [show ({ tzOffsetMin := 60 * O } : Site).tzOffsetMin = 60 * O from rfl,
        offsetHours_mul60]
      rw [applyOffsetHours_neg O hneg (by omega) _ hne hlen]
      rw [Option.some_bind]
      rw [applyOffset_eq _ _ (by simp)]
      rw [show ({ tzOffsetMin := 60 * -O } : Site).tzOffsetMin = 60 * -O from rfl,
        offsetHours_mul60]
      have hne1 : ∀ p ∈ (q :: qs).map fun p =>
          { p with stats := List.zipWith (borrowDay O.natAbs) p.stats p.stats.tail },
          p.stats ≠ [] := by
        intro p hp
        obtain ⟨p0, hp0, rfl⟩ := List.mem_map.mp hp
        have h2 := hcnt p0 hp0
        intro hc
        have := congrArg List.length hc
        rw [List.length_zipWith, List.length_tail] at this
        simp at this
        omega
      have hlen1 : ∀ p ∈ (q :: qs).map fun p =>
          { p with stats := List.zipWith (borrowDay O.natAbs) p.stats p.stats.tail },
          ∀ s ∈ p.stats, s.hourly.length = 24 ∧ s.hourlyUnique.length = 24 := by
        intro p hp
        obtain ⟨p0, hp0, rfl⟩ := List.mem_map.mp hp
        exact zipWith_stat24 _ (borrowDay_stat24 O.natAbs (by omega)) _ _ (hlen p0 hp0)
          (fun b hb => hlen p0 hp0 b (List.mem_of_mem_tail hb))
      rw [applyOffsetHours_pos (-O) (by omega) (by omega) _ hne1 hlen1]
      refine congrArg some ?_
      rw [List.map_map]
      refine List.map_congr_left fun p hp => ?_
      have hnat : (-O).toNat = O.natAbs := by omega
      simp only [Function.comp_apply, hnat, if_neg (by omega : ¬ O = 0)]
      refine congrArg _ ?_
      exact zipWith_shift_twice (borrowDay O.natAbs) (backfillDay O.natAbs) p.stats
        fun a ha b hb c hc =>
          backfill_borrow O.natAbs (by omega) a b c (hlen p hp a ha).1 (hlen p hp a ha).2
            (hlen p hp b hb).1 (hlen p hp b hb).2
  · -- O = 0: both applications are no-ops
    have hz : offsetHours ((60 : Int) * 0) = 0 := by decide
    rw [applyOffset_of_zero hh _ hz, Option.some_bind]
    rw [applyOffset_of_zero hh _ (by rw [show ({ tzOffsetMin := 60 * -(0 : Int) } :
      Site).tzOffsetMin = 60 * -(0 : Int) from rfl]; decide)]
    refine congrArg some ?_
    simp only [eq_self_iff_true, if_true]
    have h1 : (fun (p : HitStat) => { p with stats := p.stats }) = fun p => p := rfl
    rw [h1, List.map_id']
  · -- O > 0: backfill then borrow
    cases hh with
    | nil => simp [applyOffset]
    | cons q qs =>
      rw [applyOffset_eq _ _ (by simp)]
      rw [show ({ tzOffsetMin := 60 * O } : Site).tzOffsetMin = 60 * O from rfl,
        offsetHours_mul60]
      rw [applyOffsetHours_pos O hpos (by omega) _ hne hlen]
      rw [Option.some_bind]
      rw [applyOffset_eq _ _ (by simp)]
      rw [show ({ tzOffsetMin := 60 * -O } : Site).tzOffsetMin = 60 * -O from rfl,
        offsetHours_mul60]
      have hne1 : ∀ p ∈ (q :: qs).map fun p =>
          { p with stats := List.zipWith (backfillDay O.toNat) p.stats p.stats.tail },
          p.stats ≠ [] := by
        intro p hp
        obtain ⟨p0, hp0, rfl⟩ := List.mem_map.mp hp
        have h2 := hcnt p0 hp0
        intro hc
        have := congrArg List.length hc
        rw [List.length_zipWith, List.length_tail] at this
        simp at this
        omega
      have hlen1 : ∀ p ∈ (q :: qs).map fun p =>
          { p with stats := List.zipWith (backfillDay O.toNat) p.stats p.stats.tail },
          ∀ s ∈ p.stats, s.hourly.length = 24 ∧ s.hourlyUnique.length = 24 := by
        intro p hp
        obtain ⟨p0, hp0, rfl⟩ := List.mem_map.mp hp
        exact zipWith_stat24 _ (backfillDay_stat24 O.toNat (by omega)) _ _ (hlen p0 hp0)
          (fun b hb => hlen p0 hp0 b (List.mem_of_mem_tail hb))
      rw [applyOffsetHours_neg (-O) (by omega) (by omega) _ hne1 hlen1]
      refine congrArg some ?_
      rw [List.map_map]
      refine List.map_congr_left fun p hp => ?_
      have hnat : (-O).natAbs = O.toNat := by omega
      simp only [Function.comp_apply, hnat, if_neg (by omega : ¬ O = 0)]
      refine congrArg _ ?_
      exact zipWith_shift_twice (backfillDay O.toNat) (borrowDay O.toNat) p.stats
        fun a ha b hb c hc =>
          borrow_backfill O.toNat (by omega) a b c (hlen p hp a ha).1 (hlen p hp a ha).2
            (hlen p hp b hb).1 (hlen p hp b hb).2

theorem C6_offset_roundtrip_witness :
    (applyOffset [c6Path] { tzOffsetMin := 60 * 2 }).bind
        (fun hh1 => applyOffset hh1 { tzOffsetMin := 60 * -2 }) =
      some [{ c6Path with stats := [c1DayB] }] := by
  have h := C6_offset_roundtrip 2 (by decide) [c6Path] (by decide) (by decide)
  rw [h]; decide

theorem expectedFill_skip (s : Stat) (tl : List Stat) :
    ∀ (steps : Nat) (d' : Int), s.day < d' →
    expectedFill d' steps (s :: tl) = expectedFill d' steps tl := by
  intro steps
  induction steps with
  | zero =>
    intro d' h
    rw [expectedFill, expectedFill, List.find?_cons_of_neg]
    simp only [beq_iff_eq]
    omega
  | succ steps ih =>
    intro d' h
    rw [expectedFill, expectedFill, List.find?_cons_of_neg, ih (d' + 1) (by omega)]
    simp only [beq_iff_eq]
    omega

theorem fillPath_eq_expected :
    ∀ (steps : Nat) (d : Int) (stats : List Stat),
    List.Pairwise (fun a b => a.day < b.day) stats →
    (∀ s ∈ stats, d ≤ s.day ∧ s.day ≤ d + steps) →
    fillPath d steps stats = expectedFill d steps stats := by
  intro steps
  induction steps with
  | zero =>
    intro d stats _ hbnd
    cases stats with
    | nil => rfl
    | cons s tl =>
      obtain ⟨h1, h2⟩ := hbnd s (by simp)
      have hd : s.day = d := by omega
      rw [fillPath, if_pos hd, expectedFill, List.find?_cons_of_pos _ (by simp [hd])]
      rfl
  | succ steps ih =>
    intro d stats hsort hbnd
    cases stats with
    | nil =>
      rw [fillPath, expectedFill, ih (d + 1) [] (by simp) (by simp)]
      rfl
    | cons s tl =>
      have htl : List.Pairwise (fun a b => a.day < b.day) tl := hsort.of_cons
      have hstl : ∀ x ∈ tl, s.day < x.day := fun x hx => List.rel_of_pairwise_cons hsort hx
      by_cases hd : s.day = d
      · rw [fillPath, if_pos hd, expectedFill, List.find?_cons_of_pos _ (by simp [hd])]
        refine congrArg _ ?_
        rw [ih (d + 1) tl htl (fun x hx => ⟨by have := hstl x hx; omega,
          by have := (hbnd x (List.mem_cons_of_mem _ hx)).2; omega⟩)]
        rw [expectedFill_skip s tl steps (d + 1) (by omega)]
      · obtain ⟨h1, _⟩ := hbnd s (by simp)
        have hgt : d < s.day := by omega
        rw [fillPath, if_neg hd, expectedFill, List.find?_cons_of_neg _ (by simp [hd])]
        have hnone : tl.find? (fun x => x.day == d) = none := by
          rw [List.find?_eq_none]
          intro x hx
          have := hstl x hx
          simp only [beq_iff_eq]
          omega
        rw [hnone]
        refine congrArg _ ?_
        exact ih (d + 1) (s :: tl) hsort (fun x hx => by
          rcases List.mem_cons.mp hx with rfl | hx2
          · exact ⟨by omega, by have := (hbnd x (by simp)).2; omega⟩
          · exact ⟨by have := hstl x hx2; omega,
              by have := (hbnd x (List.mem_cons_of_mem _ hx2)).2; omega⟩)

/-- C5: for an inclusive range with `start <= end` and each path's fetched
stats strictly ascending by day and within the window (which is what the
SQL `where day>=start and day<=end ... order by day asc` returns),
`fillBlankDays` terminates and produces exactly one `Stat` per calendar
day of the window, in order: the fetched entry for each present day, an
all-zero blank (`allDays` twice) for each absent day.  In particular a
window spanning only days with zero hits comes back all-zero. -/
theorem C5_fillBlankDays_fill (hh : List HitStat) (start endT : Int)
    (hse : ¬ endT < start)
    (hsort : ∀ p ∈ hh, List.Pairwise (fun a b => a.day < b.day) p.stats)
    (hrange : ∀ p ∈ hh, ∀ s ∈ p.stats, dayOf start ≤ s.day ∧ s.day ≤ dayOf endT) :
    fillBlankDays hh start endT =
      hh.map fun p =>
        { p with stats :=
            expectedFill (dayOf start) (dayOf endT - dayOf start).toNat p.stats } := by
  have hdd : dayOf start ≤ dayOf endT := by
    unfold dayOf
    omega
  unfold fillBlankDays
  rw [if_neg hse]
  refine List.map_congr_left fun p hp => ?_
  refine congrArg (fun st => { p with stats := st }) ?_
  refine fillPath_eq_expected _ _ _ (hsort p hp) fun s hs => ?_
  obtain ⟨hl, hr⟩ := hrange p hp s hs
  exact ⟨hl, by omega⟩

theorem C5_fillBlankDays_fill_witness :
    fillBlankDays [c5Path] (1440 * 10 + 100) (1440 * 12 + 5) =
      [{ c5Path with stats := [blankStat 10, c5Day11, blankStat 12] }] := by
  have h := C5_fillBlankDays_fill [c5Path] (1440 * 10 + 100) (1440 * 12 + 5)
    (by decide) (by decide) (by decide)
  rw [h]; decide

/-- C4, evaluated at the failing input (claim right, code wrong):
`fillBlankDays` with `start` strictly after `end` does return every path's
`Stats` unchanged (its guard), but `applyOffset` does not return normally
for every input: with a non-zero rounded offset (+2h here) and a path whose
`Stats` list is empty — exactly what `HitStat.Totals` builds when
`start > end` — the Go code evaluates `stats[1:]` on an empty slice and
panics (`none` in this model). -/
theorem C4_edge_cases_eval :
    fillBlankDays [c1Path] (1440 * 8) (1440 * 5) = [c1Path] ∧
    applyOffset [c4Empty] { tzOffsetMin := 120 } = none := by
  constructor
  · rw [fillBlankDays, if_pos (by norm_num)]
  · decide

set_option maxRecDepth 4000 in
/-- C8 counterexample: `HitStats.List` computes each entry's `Max` via
`addTotals`, which applies no floor of 10 — on the repository's own test
data the returned entry reports `Max = 2` (and the test asserts exactly
that), which is below 10.  The floor of 10 exists only in
`HitStat.Totals`/`GetMax`, not in `List`. -/
theorem C8_max_floor_counterexample :
    ((addTotals [c8Asd] false).1.map fun p => p.statMax) = [2] ∧ ¬ (10 : Int) ≤ 2 := by
  decide

theorem hourLoop_max (vs : List Int) :
    ∀ (hu : List Int) (dS duS m : Int),
    (hourLoop false vs hu dS duS m).2.2 = vs.foldl max m := by
  induction vs with
  | nil => intro hu dS duS m; rfl
  | cons v vs ih =>
    intro hu dS duS m
    rw [hourLoop, List.foldl_cons, ih]
    refine congrArg (fun z => List.foldl max z vs) ?_
    simp only [Bool.not_false, true_and]
    split
    · next h => exact (max_eq_right h.le).symm
    · next h => exact (max_eq_left (by omega)).symm

theorem addTotals_fold_max (stats : List Stat) :
    ∀ (l0 : List Stat) (c0 u0 m0 : Int),
    (stats.foldl (addTotalsStep false) (l0, c0, u0, m0)).2.2.2 =
      stats.foldl (fun m s => s.hourly.foldl max m) m0 := by
  induction stats with
  | nil => intro l0 c0 u0 m0; rfl
  | cons s rest ih =>
    intro l0 c0 u0 m0
    rw [List.foldl_cons, List.foldl_cons]
    simp only [addTotalsStep]
    rw [ih]
    refine congrArg (fun z => rest.foldl (fun m s => s.hourly.foldl max m) z) ?_
    rw [if_neg (by simp)]
    show (hourLoop false s.hourly s.hourlyUnique 0 0 m0).2.2 = _
    exact hourLoop_max s.hourly s.hourlyUnique 0 0 m0

/-- C8, amended: the floor of 10 on the chart max belongs to
`HitStat.Totals` (and `GetMax`), whose returned max is always at least 10;
`HitStats.List`'s per-entry `Max`, computed by `addTotals`, is the exact
maximum of the entry's starting `Max` and all its hourly buckets, with no
floor — so it is below 10 whenever every bucket is. -/
theorem C8_max_floor_amended :
    (∀ m : Int, 10 ≤ totalsMaxFloor m) ∧
    (∀ p : HitStat, (addTotalsPath false p).statMax =
      p.stats.foldl (fun m s => s.hourly.foldl max m) p.statMax) := by
  constructor
  · intro m
    unfold totalsMaxFloor
    split <;> omega
  · intro p
    simp only [addTotalsPath]
    exact addTotals_fold_max p.stats [] p.count p.countUnique p.statMax

/-- C9: for every site whose lifecycle state is not active, and
independently for every empty hit set, `ReindexStats` returns nil (ok)
with an empty trace — no aggregator invoked, no rollup table modified, no
error — whatever the list of table names and whatever the aggregators
would do. -/
theorem C9_reindex_noop {E : Type} (runAgg : AggTable → Bool → Except E Unit)
    (updRD : Except E Unit) (site : Site) (hits : List Hit) (tables : List String)
    (h : site.state ≠ StateActive ∨ hits = []) :
    ReindexStats runAgg updRD site hits tables = (Except.ok (), []) := by
  unfold ReindexStats
  rcases h with h | h
  · rw [if_pos h]
  · subst h
    by_cases h2 : site.state ≠ StateActive
    · rw [if_pos h2]
    · rw [if_neg h2, if_pos (by rfl)]

theorem C9_reindex_noop_witness :
    ReindexStats (fun (_ : AggTable) (_ : Bool) => Except.ok ())
      (Except.ok () : Except Unit Unit) { state := "d" } [{ pathID := 1 }] ["all"] =
      (Except.ok (), []) :=
  C9_reindex_noop _ _ _ _ _ (Or.inl (by decide))

theorem getGroup_mem : ∀ (g : List ((Int × String) × LocGroup)) (k : Int × String),
    getGroup g k = {} ∨ (k, getGroup g k) ∈ g := by
  intro g
  induction g with
  | nil => intro k; exact Or.inl rfl
  | cons kv rest ih =>
    intro k
    obtain ⟨k', v⟩ := kv
    rw [getGroup]
    split
    · next h => subst h; exact Or.inr (by simp)
    · rcases ih k with h | h
      · exact Or.inl h
      · exact Or.inr (List.mem_cons_of_mem _ h)

theorem mem_setGroup : ∀ (g : List ((Int × String) × LocGroup)) (k : Int × String)
    (v : LocGroup) (kv : (Int × String) × LocGroup),
    kv ∈ setGroup g k v → kv = (k, v) ∨ kv ∈ g := by
  intro g
  induction g with
  | nil =>
    intro k v kv h
    rw [setGroup] at h
    exact Or.inl (List.mem_singleton.mp h)
  | cons kv0 rest ih =>
    intro k v kv h
    obtain ⟨k', v'⟩ := kv0
    rw [setGroup] at h
    split at h
    · rcases List.mem_cons.mp h with h1 | h1
      · exact Or.inl h1
      · exact Or.inr (List.mem_cons_of_mem _ h1)
    · rcases List.mem_cons.mp h with h1 | h1
      · exact Or.inr (h1 ▸ List.mem_cons_self ..)
      · rcases ih k v kv h1 with h2 | h2
        · exact Or.inl h2
        · exact Or.inr (List.mem_cons_of_mem _ h2)

theorem locStep_modes_eq (st : LocState) (h : Hit)
    (hnone : lookupRow st.tbl (groupRowKey h) = none)
    (hinv : ∀ kv ∈ st.grouped, 0 < kv.2.count) :
    locStep true st h = locStep false st h := by
  by_cases hb : h.bot > 0
  · simp only [locStep, if_pos hb]
  · simp only [locStep, if_neg hb]
    by_cases hv0 : (getGroup st.grouped (locKey h)).count = 0
    · have hemp : getGroup st.grouped (locKey h) = {} := by
        rcases getGroup_mem st.grouped (locKey h) with he | hm
        · exact he
        · have h2 : 0 < (getGroup st.grouped (locKey h)).count := hinv _ hm
          omega
      simp [hemp, hnone]
    · simp only [if_neg hv0]

/-- After a step whose fetch (if any) finds nothing, every stored group
keeps a positive count and the table is untouched. -/
theorem locStep_preserves (st : LocState) (h : Hit) (isReindex : Bool)
    (hnone : lookupRow st.tbl (groupRowKey h) = none)
    (hinv : ∀ kv ∈ st.grouped, 0 < kv.2.count) :
    (∀ kv ∈ (locStep isReindex st h).grouped, 0 < kv.2.count) ∧
      (locStep isReindex st h).tbl = st.tbl := by
  by_cases hb : h.bot > 0
  · simp only [locStep, if_pos hb]
    exact ⟨hinv, trivial⟩
  · by_cases hv0 : (getGroup st.grouped (locKey h)).count = 0
    · have hemp : getGroup st.grouped (locKey h) = {} := by
        rcases getGroup_mem st.grouped (locKey h) with he | hm
        · exact he
        · have h2 : 0 < (getGroup st.grouped (locKey h)).count := hinv _ hm
          omega
      cases isReindex <;>
      · simp only [locStep, if_neg hb, hemp, hnone]
        refine ⟨fun kv hkv => ?_, by simp⟩
        rcases mem_setGroup _ _ _ _ hkv with rfl | hm
        · simp
        · exact hinv _ hm
    · have hpos : 0 < (getGroup st.grouped (locKey h)).count := by
        rcases getGroup_mem st.grouped (locKey h) with he | hm
        · rw [he] at hv0
          simp at hv0
        · exact hinv _ hm
      simp only [locStep, if_neg hb, if_neg hv0]
      refine ⟨fun kv hkv => ?_, by simp⟩
      rcases mem_setGroup _ _ _ _ hkv with rfl | hm
      · have h1 : 0 < (getGroup st.grouped (locKey h)).count + 1 := by omega
        exact h1
      · exact hinv _ hm

theorem locFold_modes_eq : ∀ (hits : List Hit) (st : LocState),
    (∀ h ∈ hits, lookupRow st.tbl (groupRowKey h) = none) →
    (∀ kv ∈ st.grouped, 0 < kv.2.count) →
    hits.foldl (locStep true) st = hits.foldl (locStep false) st := by
  intro hits
  induction hits with
  | nil => intro st _ _; rfl
  | cons h hs ih =>
    intro st hnone hinv
    rw [List.foldl_cons, List.foldl_cons,
      locStep_modes_eq st h (hnone h (by simp)) hinv]
    obtain ⟨hinv', htbl'⟩ := locStep_preserves st h false (hnone h (by simp)) hinv
    exact ih _ (fun x hx => htbl' ▸ hnone x (List.mem_cons_of_mem _ hx)) hinv'

/-- C2: reindex mode only skips the fetch-existing-and-delete round-trip;
when no `location_stats` row exists for any `(site, day, location, path)`
key occurring in the batch, the reindex run and the incremental run of
`updateLocationStats` produce exactly the same insert rows (hence
identical count and count_unique sums per key and in total), the same
final table, and no deletions. -/
theorem C2_reindex_matches_incremental (ctxSiteID : Int) (tbl : LocTable)
    (hits : List Hit)
    (hnone : ∀ h ∈ hits, lookupRow tbl (groupRowKey h) = none) :
    updateLocationStats ctxSiteID tbl hits true =
      updateLocationStats ctxSiteID tbl hits false := by
  unfold updateLocationStats
  rw [locFold_modes_eq hits { tbl := tbl } hnone (by simp)]

theorem C2_reindex_matches_incremental_witness :
    updateLocationStats 1 []
      [{ site := 1, pathID := 2, location := "NL", firstVisit := true, createdDay := 18139 },
       { site := 1, pathID := 2, location := "NL", createdDay := 18139 }] true =
    updateLocationStats 1 []
      [{ site := 1, pathID := 2, location := "NL", firstVisit := true, createdDay := 18139 },
       { site := 1, pathID := 2, location := "NL", createdDay := 18139 }] false :=
  C2_reindex_matches_incremental 1 [] _ (by intro h hh; rfl)

/-- C3 counterexample, at a concrete batch with no pre-existing rows.  The
code groups by the *concatenated string* `day+location+pathID`, so the
distinct tuples `("a1", 2)` and `("a", 12)` collide into one key `"a12"`
and produce ONE inserted row with count 2; and a hit with bot code `-1`
is counted, because the code skips only `bot > 0`.  The claim's grouping
(one row per tuple, all non-zero bots skipped) gives two different rows. -/
theorem C3_locationStats_counterexample :
    (updateLocationStats 1 [] c3Hits false).1 =
      [(1, 18000, 2, "a1", 2, 1), (1, 18000, 3, "b", 1, 0)] ∧
    claimLocationRows 1 c3Hits =
      [(1, 18000, 2, "a1", 1, 1), (1, 18000, 12, "a", 1, 0)] ∧
    (updateLocationStats 1 [] c3Hits false).1 ≠ claimLocationRows 1 c3Hits := by
  refine ⟨by decide, by decide, by decide⟩

theorem cntKey_append (hs : List Hit) (h : Hit) (k : Int × String) :
    cntKey (hs ++ [h]) k =
      cntKey hs k + if keptHit h = true ∧ locKey h = k then 1 else 0 := by
  unfold cntKey
  rw [List.filter_append, List.length_append, Nat.cast_add]
  refine congrArg _ ?_
  by_cases hc : keptHit h = true ∧ locKey h = k
  · rw [if_pos hc]
    simp [List.filter, hc.1, hc.2]
  · rw [if_neg hc]
    rcases Decidable.not_and_iff_or_not.mp hc with h1 | h1 <;> simp [List.filter, h1]

theorem uniqKey_append (hs : List Hit) (h : Hit) (k : Int × String) :
    uniqKey (hs ++ [h]) k =
      uniqKey hs k +
        if (keptHit h = true ∧ locKey h = k) ∧ h.firstVisit = true then 1 else 0 := by
  unfold uniqKey
  rw [List.filter_append, List.length_append, Nat.cast_add]
  refine congrArg _ ?_
  by_cases hc : (keptHit h = true ∧ locKey h = k) ∧ h.firstVisit = true
  · rw [if_pos hc]
    simp [List.filter, hc.1.1, hc.1.2, hc.2]
  · rw [if_neg hc]
    rcases Decidable.not_and_iff_or_not.mp hc with h1 | h1
    · rcases Decidable.not_and_iff_or_not.mp h1 with h2 | h2 <;> simp [List.filter, h2]
    · simp [List.filter, h1]

theorem mem_firstKeys : ∀ (hits : List Hit) (k : Int × String),
    k ∈ firstKeys hits ↔ ∃ h, h ∈ hits ∧ keptHit h = true ∧ locKey h = k := by
  intro hits
  induction hits with
  | nil => intro k; simp [firstKeys]
  | cons h t ih =>
    intro k
    by_cases hk : keptHit h = true
    · rw [firstKeys, if_pos hk]
      constructor
      · intro hm
        rcases List.mem_cons.mp hm with rfl | hm2
        · exact ⟨h, by simp, hk, rfl⟩
        · obtain ⟨hmem, -⟩ := List.mem_filter.mp hm2
          obtain ⟨x, hx, hkx, hlx⟩ := (ih k).mp hmem
          exact ⟨x, List.mem_cons_of_mem _ hx, hkx, hlx⟩
      · rintro ⟨x, hx, hkx, hlx⟩
        rcases List.mem_cons.mp hx with rfl | hx2
        · exact hlx ▸ List.mem_cons_self ..
        · by_cases hek : k = locKey h
          · exact hek ▸ List.mem_cons_self ..
          · refine List.mem_cons_of_mem _ (List.mem_filter.mpr ⟨(ih k).mpr ⟨x, hx2, hkx, hlx⟩, ?_⟩)
            simpa using hek
    · rw [firstKeys, if_neg hk]
      rw [ih k]
      constructor
      · rintro ⟨x, hx, hkx, hlx⟩
        exact ⟨x, List.mem_cons_of_mem _ hx, hkx, hlx⟩
      · rintro ⟨x, hx, hkx, hlx⟩
        rcases List.mem_cons.mp hx with rfl | hx2
        · exact absurd hkx hk
        · exact ⟨x, hx2, hkx, hlx⟩

theorem find?_of_mem_firstKeys (hits : List Hit) (k : Int × String)
    (hk : k ∈ firstKeys hits) :
    ∃ fh, (hits.find? fun h => keptHit h && decide (locKey h = k)) = some fh ∧
      keptHit fh = true ∧ locKey fh = k := by
  obtain ⟨x, hx, hkx, hlx⟩ := (mem_firstKeys hits k).mp hk
  have hsome : ((hits.find? fun h => keptHit h && decide (locKey h = k))).isSome := by
    rw [List.find?_isSome]
    exact ⟨x, hx, by simp [hkx, hlx]⟩
  obtain ⟨fh, hfh⟩ := Option.isSome_iff_exists.mp hsome
  have hp := List.find?_some hfh
  simp only [Bool.and_eq_true, decide_eq_true_eq] at hp
  exact ⟨fh, hfh, hp.1, hp.2⟩

theorem firstHitOf_key (hits : List Hit) (k : Int × String) (hk : k ∈ firstKeys hits) :
    keptHit (firstHitOf hits k) = true ∧ locKey (firstHitOf hits k) = k := by
  obtain ⟨fh, hfh, h1, h2⟩ := find?_of_mem_firstKeys hits k hk
  rw [firstHitOf, hfh]
  exact ⟨h1, h2⟩

theorem find?_none_of_not_mem_firstKeys (hits : List Hit) (k : Int × String)
    (hk : ¬ k ∈ firstKeys hits) :
    (hits.find? fun h => keptHit h && decide (locKey h = k)) = none := by
  rw [List.find?_eq_none]
  intro x hx hpx
  simp only [Bool.and_eq_true, decide_eq_true_eq] at hpx
  exact hk ((mem_firstKeys hits k).mpr ⟨x, hx, hpx.1, hpx.2⟩)

theorem cntKey_eq_zero_of_not_mem (hits : List Hit) (k : Int × String)
    (hk : ¬ k ∈ firstKeys hits) : cntKey hits k = 0 := by
  unfold cntKey
  have he : (hits.filter fun h => keptHit h && decide (locKey h = k)) = [] := by
    rw [List.filter_eq_nil_iff]
    intro x hx hpx
    simp only [Bool.and_eq_true, decide_eq_true_eq] at hpx
    exact hk ((mem_firstKeys hits k).mpr ⟨x, hx, hpx.1, hpx.2⟩)
  rw [he]
  rfl

theorem uniqKey_eq_zero_of_not_mem (hits : List Hit) (k : Int × String)
    (hk : ¬ k ∈ firstKeys hits) : uniqKey hits k = 0 := by
  unfold uniqKey
  have he : (hits.filter fun h =>
      (keptHit h && decide (locKey h = k)) && h.firstVisit) = [] := by
    rw [List.filter_eq_nil_iff]
    intro x hx hpx
    simp only [Bool.and_eq_true, decide_eq_true_eq] at hpx
    exact hk ((mem_firstKeys hits k).mpr ⟨x, hx, hpx.1.1, hpx.1.2⟩)
  rw [he]
  rfl

theorem cntKey_pos_of_mem (hits : List Hit) (k : Int × String)
    (hk : k ∈ firstKeys hits) : 1 ≤ cntKey hits k := by
  obtain ⟨x, hx, hkx, hlx⟩ := (mem_firstKeys hits k).mp hk
  unfold cntKey
  have : x ∈ hits.filter fun h => keptHit h && decide (locKey h = k) :=
    List.mem_filter.mpr ⟨hx, by simp [hkx, hlx]⟩
  have hlen := List.length_pos_of_mem this
  omega

theorem groupRowKey_locKey (h1 h2 : Hit) (he : groupRowKey h1 = groupRowKey h2) :
    locKey h1 = locKey h2 := by
  unfold groupRowKey at he
  simp only [Prod.mk.injEq] at he
  unfold locKey
  rw [he.2.1, he.2.2.1, he.2.2.2]

theorem firstKeys_nodup : ∀ hits : List Hit, (firstKeys hits).Nodup := by
  intro hits
  induction hits with
  | nil => exact List.nodup_nil
  | cons h t ih =>
    by_cases hk : keptHit h = true
    · rw [firstKeys, if_pos hk]
      refine List.Nodup.cons ?_ (ih.filter _)
      intro hmem
      obtain ⟨-, hne⟩ := List.mem_filter.mp hmem
      simp at hne
    · rw [firstKeys, if_neg hk]
      exact ih

theorem firstKeys_append_not_kept (hs : List Hit) (h : Hit) (hk : ¬ keptHit h = true) :
    firstKeys (hs ++ [h]) = firstKeys hs := by
  induction hs with
  | nil => simp [firstKeys, hk]
  | cons h0 t ih =>
    by_cases hk0 : keptHit h0 = true
    · rw [List.cons_append, firstKeys, if_pos hk0, firstKeys, if_pos hk0, ih]
    · rw [List.cons_append, firstKeys, if_neg hk0, firstKeys, if_neg hk0, ih]

theorem firstKeys_append_kept (hs : List Hit) (h : Hit) (hk : keptHit h = true) :
    firstKeys (hs ++ [h]) =
      if locKey h ∈ firstKeys hs then firstKeys hs
      else firstKeys hs ++ [locKey h] := by
  induction hs with
  | nil => simp [firstKeys, hk]
  | cons h0 t ih =>
    by_cases hk0 : keptHit h0 = true
    · rw [List.cons_append, firstKeys, if_pos hk0, firstKeys, if_pos hk0, ih]
      by_cases hek : locKey h = locKey h0
      · have hm : locKey h ∈ locKey h0 :: (firstKeys t).filter fun k' => ¬ k' = locKey h0 :=
          hek ▸ List.mem_cons_self ..
        rw [if_pos hm]
        by_cases hmt : locKey h ∈ firstKeys t
        · rw [if_pos hmt]
        · rw [if_neg hmt, List.filter_append]
          simp [hek]
      · by_cases hmt : locKey h ∈ firstKeys t
        · rw [if_pos hmt, if_pos (List.mem_cons_of_mem _
            (List.mem_filter.mpr ⟨hmt, by simpa using hek⟩))]
        · rw [if_neg hmt, if_neg ?hnm, List.filter_append]
          · simp only [List.cons_append]
            refine congrArg _ ?_
            refine congrArg₂ _ rfl ?_
            simp [hek]
          case hnm =>
            intro hmem
            rcases List.mem_cons.mp hmem with he | hmem2
            · exact hek he
            · exact hmt (List.mem_filter.mp hmem2).1
    · rw [List.cons_append, firstKeys, if_neg hk0, firstKeys, if_neg hk0, ih]

theorem firstHitOf_append_mem (hs : List Hit) (h : Hit) (k : Int × String)
    (hk : k ∈ firstKeys hs) : firstHitOf (hs ++ [h]) k = firstHitOf hs k := by
  obtain ⟨fh, hfh, -, -⟩ := find?_of_mem_firstKeys hs k hk
  rw [firstHitOf, firstHitOf, List.find?_append, hfh]
  rfl

theorem firstHitOf_append_new (hs : List Hit) (h : Hit) (k : Int × String)
    (hk : ¬ k ∈ firstKeys hs) (hh : keptHit h = true) (hl : locKey h = k) :
    firstHitOf (hs ++ [h]) k = h := by
  rw [firstHitOf, List.find?_append, find?_none_of_not_mem_firstKeys hs k hk]
  simp [List.find?, hh, hl]

theorem getGroup_map_mem (f : (Int × String) → LocGroup) :
    ∀ (keys : List (Int × String)) (k : Int × String), k ∈ keys →
    getGroup (keys.map fun k' => (k', f k')) k = f k := by
  intro keys
  induction keys with
  | nil => intro k hk; simp at hk
  | cons k0 rest ih =>
    intro k hk
    rw [List.map_cons, getGroup]
    split
    · next he => rw [← he]
    · next hne =>
      rcases List.mem_cons.mp hk with rfl | hk2
      · exact absurd rfl hne
      · exact ih k hk2

theorem getGroup_map_not_mem (f : (Int × String) → LocGroup) :
    ∀ (keys : List (Int × String)) (k : Int × String), ¬ k ∈ keys →
    getGroup (keys.map fun k' => (k', f k')) k = {} := by
  intro keys
  induction keys with
  | nil => intro k _; rfl
  | cons k0 rest ih =>
    intro k hk
    rw [List.map_cons, getGroup]
    split
    · next he => exact absurd (he ▸ List.mem_cons_self ..) hk
    · exact ih k fun h2 => hk (List.mem_cons_of_mem _ h2)

theorem setGroup_absent : ∀ (g : List ((Int × String) × LocGroup)) (k : Int × String)
    (w : LocGroup), (∀ kv ∈ g, ¬ kv.1 = k) → setGroup g k w = g ++ [(k, w)] := by
  intro g
  induction g with
  | nil => intro k w _; rfl
  | cons kv0 rest ih =>
    intro k w hna
    obtain ⟨k', v'⟩ := kv0
    rw [setGroup, if_neg (hna (k', v') (by simp)), List.cons_append,
      ih k w fun kv hkv => hna kv (List.mem_cons_of_mem _ hkv)]

theorem setGroup_map_mem (f : (Int × String) → LocGroup) (k : Int × String) (w : LocGroup) :
    ∀ (keys : List (Int × String)), keys.Nodup → k ∈ keys →
    setGroup (keys.map fun k' => (k', f k')) k w =
      keys.map fun k' => (k', if k' = k then w else f k') := by
  intro keys
  induction keys with
  | nil => intro _ hk; simp at hk
  | cons k0 rest ih =>
    intro hnd hk
    rw [List.map_cons, List.map_cons, setGroup]
    split
    · next he =>
      subst he
      refine congrArg _ ?_
      refine (List.map_congr_left fun k' hk' => ?_).symm
      rw [if_neg]
      intro he2
      exact (List.nodup_cons.mp hnd).1 (he2 ▸ hk')
    · next hne =>
      rcases List.mem_cons.mp hk with rfl | hk2
      · exact absurd rfl hne
      · exact congrArg _ (ih (List.nodup_cons.mp hnd).2 hk2)

theorem lookupRow_filter (p : LocRowKey × (Int × Int) → Bool) :
    ∀ (tbl : LocTable) (rk : LocRowKey), (∀ r ∈ tbl, r.1 = rk → p r = true) →
    lookupRow (tbl.filter p) rk = lookupRow tbl rk := by
  intro tbl
  induction tbl with
  | nil => intro rk _; rfl
  | cons r rest ih =>
    intro rk hp
    by_cases hr : r.1 = rk
    · rw [List.filter_cons_of_pos (hp r (by simp) hr)]
      unfold lookupRow
      rw [List.find?_cons_of_pos _ (by simp [hr]), List.find?_cons_of_pos _ (by simp [hr])]
    · by_cases hpr : p r = true
      · rw [List.filter_cons_of_pos hpr]
        unfold lookupRow
        rw [List.find?_cons_of_neg _ (by simp [hr]), List.find?_cons_of_neg _ (by simp [hr])]
        exact ih rk fun x hx => hp x (List.mem_cons_of_mem _ hx)
      · rw [List.filter_cons_of_neg (by simpa using hpr)]
        unfold lookupRow at ih ⊢
        rw [List.find?_cons_of_neg _ (by simp [hr])]
        exact ih rk fun x hx => hp x (List.mem_cons_of_mem _ hx)

theorem filter_eq_self_of_lookup_none (tbl : LocTable) (rk : LocRowKey)
    (hn : lookupRow tbl rk = none) :
    (tbl.filter fun r => ¬ r.1 = rk) = tbl := by
  have hfind : (tbl.find? fun r => r.1 = rk) = none := by
    unfold lookupRow at hn
    exact Option.map_eq_none'.mp hn
  rw [List.find?_eq_none] at hfind
  rw [List.filter_eq_self]
  intro r hr
  simpa using hfind r hr

theorem lookupRow_mem (tbl : LocTable) (rk : LocRowKey) (c : Int × Int)
    (hl : lookupRow tbl rk = some c) : (rk, c) ∈ tbl := by
  unfold lookupRow at hl
  obtain ⟨r, hr, hrc⟩ := Option.map_eq_some'.mp hl
  have hkey := List.find?_some hr
  have hmem := List.mem_of_find?_eq_some hr
  simp only [decide_eq_true_eq] at hkey
  obtain ⟨r1, r2⟩ := r
  simp only at hkey hrc
  rw [← hkey, ← hrc]
  exact hmem

theorem LocState.ext' (a b : LocState) (h1 : a.grouped = b.grouped)
    (h2 : a.tbl = b.tbl) (h3 : a.deleted = b.deleted) : a = b := by
  cases a
  cases b
  simp only [LocState.mk.injEq]
  exact ⟨h1, h2, h3⟩

theorem not_mem_newTuples (hs : List Hit) (h : Hit) (hk : ¬ locKey h ∈ firstKeys hs) :
    ¬ groupRowKey h ∈ newTuples hs := by
  intro hmem
  obtain ⟨k', hk', heq⟩ := List.mem_map.mp hmem
  have h2 := (firstHitOf_key hs k' hk').2
  have h3 := groupRowKey_locKey _ _ heq
  rw [h2] at h3
  exact hk (h3 ▸ hk')

theorem newTuples_append_of_no_new (hs : List Hit) (h : Hit)
    (hcond : firstKeys (hs ++ [h]) = firstKeys hs) :
    newTuples (hs ++ [h]) = newTuples hs := by
  unfold newTuples
  rw [hcond]
  exact List.map_congr_left fun k hk =>
    congrArg groupRowKey (firstHitOf_append_mem hs h k hk)

theorem newTuples_append_new (hs : List Hit) (h : Hit) (hkept : keptHit h = true)
    (hm : ¬ locKey h ∈ firstKeys hs) :
    newTuples (hs ++ [h]) = newTuples hs ++ [groupRowKey h] := by
  unfold newTuples
  rw [firstKeys_append_kept hs h hkept, if_neg hm, List.map_append]
  refine congrArg₂ _ (List.map_congr_left fun k hk =>
    congrArg groupRowKey (firstHitOf_append_mem hs h k hk)) ?_
  rw [List.map_singleton, firstHitOf_append_new hs h (locKey h) hm hkept rfl]

theorem freshGroup_append_old (tbl : LocTable) (hs : List Hit) (h : Hit)
    (k : Int × String) (hk : k ∈ firstKeys hs)
    (hne : ¬ (keptHit h = true ∧ locKey h = k)) :
    freshGroup tbl (hs ++ [h]) k = freshGroup tbl hs k := by
  unfold freshGroup
  rw [firstHitOf_append_mem hs h k hk, cntKey_append, uniqKey_append, if_neg hne,
    if_neg fun hc => hne hc.1, add_zero, add_zero]

theorem freshGroup_append_bump (tbl : LocTable) (hs : List Hit) (h : Hit)
    (hkept : keptHit h = true) (hm : locKey h ∈ firstKeys hs) :
    freshGroup tbl (hs ++ [h]) (locKey h) =
      { freshGroup tbl hs (locKey h) with
        count := (freshGroup tbl hs (locKey h)).count + 1
        countUnique := (freshGroup tbl hs (locKey h)).countUnique +
          if h.firstVisit = true then 1 else 0 } := by
  unfold freshGroup
  rw [firstHitOf_append_mem hs h _ hm, cntKey_append, uniqKey_append,
    if_pos ⟨hkept, rfl⟩]
  by_cases hfv : h.firstVisit = true
  · rw [if_pos ⟨⟨hkept, rfl⟩, hfv⟩, if_pos hfv]
    simp only [LocGroup.mk.injEq]
    refine ⟨by ring, by ring, trivial, trivial, trivial⟩
  · rw [if_neg fun hc => hfv hc.2, if_neg hfv]
    simp only [LocGroup.mk.injEq]
    refine ⟨by ring, by ring, trivial, trivial, trivial⟩

theorem freshGroup_append_new (tbl : LocTable) (hs : List Hit) (h : Hit)
    (hkept : keptHit h = true) (hm : ¬ locKey h ∈ firstKeys hs) :
    freshGroup tbl (hs ++ [h]) (locKey h) =
      { day := h.createdDay
        location := h.location
        pathID := h.pathID
        count := ((lookupRow tbl (groupRowKey h)).getD (0, 0)).1 + 1
        countUnique := ((lookupRow tbl (groupRowKey h)).getD (0, 0)).2 +
          if h.firstVisit = true then 1 else 0 } := by
  unfold freshGroup
  rw [firstHitOf_append_new hs h (locKey h) hm hkept rfl, cntKey_append, uniqKey_append,
    if_pos ⟨hkept, rfl⟩, cntKey_eq_zero_of_not_mem hs _ hm, uniqKey_eq_zero_of_not_mem hs _ hm]
  by_cases hfv : h.firstVisit = true
  · rw [if_pos ⟨⟨hkept, rfl⟩, hfv⟩, if_pos hfv]
    simp only [LocGroup.mk.injEq]
    refine ⟨by ring, by ring, trivial, trivial, trivial⟩
  · rw [if_neg fun hc => hfv hc.2, if_neg hfv]
    simp only [LocGroup.mk.injEq]
    refine ⟨by ring, by ring, trivial, trivial, trivial⟩

theorem freshGroup_count_pos (tbl : LocTable) (hits : List Hit) (k : Int × String)
    (htbl : ∀ r ∈ tbl, 0 ≤ r.2.1) (hk : k ∈ firstKeys hits) :
    0 < (freshGroup tbl hits k).count := by
  unfold freshGroup
  have hcnt := cntKey_pos_of_mem hits k hk
  cases hcase : lookupRow tbl (groupRowKey (firstHitOf hits k)) with
  | none => simp only [hcase, Option.getD_none]; omega
  | some c =>
    have hr := lookupRow_mem tbl _ c hcase
    have := htbl _ hr
    simp only [hcase, Option.getD_some]
    simp only at this
    omega

theorem locFold_initial_spec (tbl : LocTable) (htbl : ∀ r ∈ tbl, 0 ≤ r.2.1) :
    ∀ hits : List Hit,
    hits.foldl (locStep false) { grouped := [], tbl := tbl, deleted := [] } =
      { grouped := locGroupedSpec tbl hits, tbl := locTblSpec tbl hits,
        deleted := locDelSpec tbl hits } := by
  intro hits
  induction hits using List.reverseRecOn with
  | nil =>
    refine LocState.ext' _ _ rfl ?_ rfl
    show tbl = locTblSpec tbl []
    unfold locTblSpec newTuples
    rw [List.filter_eq_self.mpr]
    intro r _
    simp [firstKeys]
  | append_singleton hs h ih =>
    rw [List.foldl_append, ih, List.foldl_cons, List.foldl_nil]
    by_cases hkept : keptHit h = true
    · by_cases hm : locKey h ∈ firstKeys hs
      · -- the hit's group exists already: no fetch, bump the group
        have hb : ¬ h.bot > 0 := by
          unfold keptHit at hkept
          simpa using hkept
        have hget : getGroup (locGroupedSpec tbl hs) (locKey h) =
            freshGroup tbl hs (locKey h) :=
          getGroup_map_mem (freshGroup tbl hs) (firstKeys hs) (locKey h) hm
        have hpos := freshGroup_count_pos tbl hs (locKey h) htbl hm
        have hfk : firstKeys (hs ++ [h]) = firstKeys hs := by
          rw [firstKeys_append_kept hs h hkept, if_pos hm]
        simp only [locStep, if_neg hb, hget,
          if_neg (by omega : ¬ (freshGroup tbl hs (locKey h)).count = 0)]
        refine LocState.ext' _ _ ?_ ?_ ?_
        · show setGroup (locGroupedSpec tbl hs) (locKey h) _ = locGroupedSpec tbl (hs ++ [h])
          unfold locGroupedSpec
          rw [setGroup_map_mem (freshGroup tbl hs) (locKey h) _ (firstKeys hs)
            (firstKeys_nodup hs) hm]
          rw [hfk]
          refine List.map_congr_left fun k' hk' => ?_
          by_cases hek : k' = locKey h
          · subst hek
            rw [if_pos rfl, freshGroup_append_bump tbl hs h hkept hm]
          · rw [if_neg hek, freshGroup_append_old tbl hs h k' hk' fun hc => hek hc.2.symm]
        · show locTblSpec tbl hs = locTblSpec tbl (hs ++ [h])
          unfold locTblSpec
          rw [newTuples_append_of_no_new hs h hfk]
        · show locDelSpec tbl hs = locDelSpec tbl (hs ++ [h])
          unfold locDelSpec
          rw [newTuples_append_of_no_new hs h hfk]
      · -- a new group: fetch the existing row for the hit's tuple
        have hb : ¬ h.bot > 0 := by
          unfold keptHit at hkept
          simpa using hkept
        have hget : getGroup (locGroupedSpec tbl hs) (locKey h) = {} :=
          getGroup_map_not_mem (freshGroup tbl hs) (firstKeys hs) (locKey h) hm
        have hrknm : ¬ groupRowKey h ∈ newTuples hs := not_mem_newTuples hs h hm
        have hlook : lookupRow (locTblSpec tbl hs) (groupRowKey h) =
            lookupRow tbl (groupRowKey h) := by
          unfold locTblSpec
          refine lookupRow_filter _ tbl (groupRowKey h) fun r hr hreq => ?_
          rw [decide_eq_true_eq, hreq]
          exact hrknm
        have hfk : firstKeys (hs ++ [h]) = firstKeys hs ++ [locKey h] := by
          rw [firstKeys_append_kept hs h hkept, if_neg hm]
        have habs : ∀ kv ∈ locGroupedSpec tbl hs, ¬ kv.1 = locKey h := by
          intro kv hkv he
          obtain ⟨k', hk', rfl⟩ := List.mem_map.mp hkv
          exact hm (he ▸ hk')
        simp only [locStep, if_neg hb, hget,
          if_pos (show ({} : LocGroup).count = 0 from rfl), Bool.false_eq_true, if_false,
          hlook]
        cases hcase : lookupRow tbl (groupRowKey h) with
        | none =>
          have hnorow : ∀ r ∈ tbl, ¬ r.1 = groupRowKey h := by
            intro r hr
            have hfind : (tbl.find? fun r => r.1 = groupRowKey h) = none :=
              Option.map_eq_none'.mp hcase
            rw [List.find?_eq_none] at hfind
            simpa using hfind r hr
          refine LocState.ext' _ _ ?_ ?_ ?_
          · show setGroup (locGroupedSpec tbl hs) (locKey h) _ =
              locGroupedSpec tbl (hs ++ [h])
            rw [setGroup_absent _ _ _ habs]
            unfold locGroupedSpec
            rw [hfk, List.map_append, List.map_singleton]
            refine congrArg₂ _ (List.map_congr_left fun k' hk' => ?_) ?_
            · rw [freshGroup_append_old tbl hs h k' hk' fun hc => hm (hc.2.symm ▸ hk')]
            · rw [freshGroup_append_new tbl hs h hkept hm, hcase]
              simp
          · show locTblSpec tbl hs = locTblSpec tbl (hs ++ [h])
            unfold locTblSpec
            rw [newTuples_append_new hs h hkept hm]
            refine List.filter_congr fun r hr => ?_
            have := hnorow r hr
            by_cases h1 : r.1 ∈ newTuples hs <;> simp [h1, List.mem_append, this]
          · show locDelSpec tbl hs = locDelSpec tbl (hs ++ [h])
            unfold locDelSpec
            rw [newTuples_append_new hs h hkept hm, List.filter_append]
            simp [hcase]
        | some c =>
          refine LocState.ext' _ _ ?_ ?_ ?_
          · show setGroup (locGroupedSpec tbl hs) (locKey h) _ =
              locGroupedSpec tbl (hs ++ [h])
            rw [setGroup_absent _ _ _ habs]
            unfold locGroupedSpec
            rw [hfk, List.map_append, List.map_singleton]
            refine congrArg₂ _ (List.map_congr_left fun k' hk' => ?_) ?_
            · rw [freshGroup_append_old tbl hs h k' hk' fun hc => hm (hc.2.symm ▸ hk')]
            · rw [freshGroup_append_new tbl hs h hkept hm, hcase]
              simp
          · show deleteRow (locTblSpec tbl hs) (groupRowKey h) = locTblSpec tbl (hs ++ [h])
            unfold deleteRow locTblSpec
            rw [newTuples_append_new hs h hkept hm, List.filter_filter]
            refine List.filter_congr fun r hr => ?_
            by_cases h1 : r.1 ∈ newTuples hs <;> by_cases h2 : r.1 = groupRowKey h <;>
              simp [h1, h2, List.mem_append]
          · show locDelSpec tbl hs ++ [groupRowKey h] = locDelSpec tbl (hs ++ [h])
            unfold locDelSpec
            rw [newTuples_append_new hs h hkept hm, List.filter_append]
            simp [hcase]
    · -- bot hit: skipped, nothing changes
      have hb : h.bot > 0 := by
        unfold keptHit at hkept
        simpa using hkept
      simp only [locStep, if_pos hb]
      have hfk := firstKeys_append_not_kept hs h hkept
      refine LocState.ext' _ _ ?_ ?_ ?_
      · show locGroupedSpec tbl hs = locGroupedSpec tbl (hs ++ [h])
        unfold locGroupedSpec
        rw [hfk]
        refine List.map_congr_left fun k' hk' => ?_
        rw [freshGroup_append_old tbl hs h k' hk' fun hc => hkept hc.1]
      · show locTblSpec tbl hs = locTblSpec tbl (hs ++ [h])
        unfold locTblSpec
        rw [newTuples_append_of_no_new hs h hfk]
      · show locDelSpec tbl hs = locDelSpec tbl (hs ++ [h])
        unfold locDelSpec
        rw [newTuples_append_of_no_new hs h hfk]

/-- C3, amended: in incremental mode `updateLocationStats` groups the batch
by the concatenated string key day‖location‖decimal(pathID) — which agrees
with grouping by the `(day, location, path)` tuple except when two
distinct `(location, pathID)` pairs concatenate equally — and skips
exactly the hits with bot code > 0 (a negative code is counted).  For
each group it fetches the existing `location_stats` row for the first
counted hit's exact `(site, day, location, path)` key, takes its `count`
and `count_unique` as the starting point and deletes that row; it adds 1
to count per hit and 1 to count_unique per first-visit hit, and finally
inserts exactly one row per group, in a single bulk insert, under the
context site's ID.  (Stored counts are assumed non-negative, as database
counts are.) -/
theorem C3_locationStats_amended (ctxSiteID : Int) (tbl : LocTable) (hits : List Hit)
    (htbl : ∀ r ∈ tbl, 0 ≤ r.2.1) :
    updateLocationStats ctxSiteID tbl hits false =
      ((firstKeys hits).map fun k =>
        (ctxSiteID, (freshGroup tbl hits k).day, (freshGroup tbl hits k).pathID,
          (freshGroup tbl hits k).location, (freshGroup tbl hits k).count,
          (freshGroup tbl hits k).countUnique),
       { grouped := locGroupedSpec tbl hits, tbl := locTblSpec tbl hits,
         deleted := locDelSpec tbl hits }) := by
  unfold updateLocationStats
  rw [locFold_initial_spec tbl htbl hits]
  refine congrArg₂ Prod.mk ?_ rfl
  show (locGroupedSpec tbl hits).map _ = _
  unfold locGroupedSpec
  rw [List.map_map]
  rfl

theorem C3_locationStats_amended_witness :
    (updateLocationStats 1 c3wTbl c3wHits false).1 = [(1, 18000, 5, "NL", 5, 3)] ∧
    (updateLocationStats 1 c3wTbl c3wHits false).2 =
      { grouped := [((18000, "NL5"),
          { count := 5, countUnique := 3, day := 18000, location := "NL", pathID := 5 })],
        tbl := [], deleted := [(1, 18000, "NL", 5)] } := by
  have h := C3_locationStats_amended 1 c3wTbl c3wHits (by decide)
  rw [h]
  exact ⟨by decide, by decide⟩

/-- C10 counterexample: the non-event path `"/web/2020"` (9 bytes,
shorter than 20) normalizes to itself, matches the `/web/20` archive
marker, and the Go code then evaluates `h.Path[20:]` — a slice-bounds
panic, not a normal return.  (The URL-parsing abstractions are irrelevant:
the panic happens before they are consulted.) -/
theorem C10_cleanPath_counterexample :
    cleanPath (fun _ => none) (fun _ => none) false "/web/2020".toList = none := by
  decide

theorem trimRightQA_eq_self (p : List Char) (h : ∀ c ∈ p, ¬ (c = '?' ∨ c = '&')) :
    trimRightQA p = p := by
  unfold trimRightQA
  have hd : p.reverse.dropWhile (fun c => decide (c = '?' ∨ c = '&')) = p.reverse := by
    cases hrev : p.reverse with
    | nil => rfl
    | cons c cs =>
      rw [List.dropWhile_cons]
      rw [if_neg]
      have hc : c ∈ p := by
        rw [← List.mem_reverse, hrev]
        exact List.mem_cons_self ..
      simpa using h c hc
  rw [hd, List.reverse_reverse]

theorem contains_q_false (p : List Char) (h : ∀ c ∈ p, ¬ (c = '?' ∨ c = '&')) :
    p.contains '?' = false := by
  rw [← Bool.not_eq_true, List.contains, List.elem_iff]
  intro hm
  exact h _ hm (Or.inl rfl)

/-- C10, amended: `cleanPath` (invoked from `Hit.Defaults` on every
ingested hit) terminates and, for every non-empty non-event path that
does not match the offline-storage marker, behaves as follows:
* if the normalized path `"/" + trim(path, "/")` starts with `/web/20`
  and is shorter than 20 bytes, the code panics slicing `h.Path[20:]`
  (so the original claim's "never panics" is wrong);
* if it does not start with `/web/20` and contains no `?` or `&`, the
  result is exactly `"/" + trim(path, "/")` — in particular `"/asd/"`
  and `"/asd"` normalize to the same path. -/
theorem C10_cleanPath_amended (archParse : List Char → Option (List Char × List Char))
    (stripTracking : List Char → Option (List Char)) (p0 : List Char)
    (hne : ¬ trimSpace p0 = [])
    (hstor : ¬ storagePat.isPrefixOf ('/' :: trimSlash (trimSpace p0)) = true) :
    (webPat.isPrefixOf ('/' :: trimSlash (trimSpace p0)) = true →
      ('/' :: trimSlash (trimSpace p0)).length < 20 →
      cleanPath archParse stripTracking false p0 = none) ∧
    (¬ webPat.isPrefixOf ('/' :: trimSlash (trimSpace p0)) = true →
      (∀ c ∈ '/' :: trimSlash (trimSpace p0), ¬ (c = '?' ∨ c = '&')) →
      cleanPath archParse stripTracking false p0 =
        some ('/' :: trimSlash (trimSpace p0))) := by
  constructor
  · intro hweb hlen
    unfold cleanPath
    rw [if_neg (by simp), if_neg hne]
    simp only [if_neg hstor, if_pos hweb]
    unfold goSliceFrom
    rw [if_neg (by omega : ¬ 20 ≤ ('/' :: trimSlash (trimSpace p0)).length)]
  · intro hweb hqa
    unfold cleanPath
    rw [if_neg (by simp), if_neg hne]
    simp only [if_neg hstor, if_neg hweb]
    unfold finishTracking
    simp only [trimRightQA_eq_self _ hqa]
    rw [if_pos (show ¬ ('/' :: trimSlash (trimSpace p0)).contains '?' = true by
      rw [List.contains, List.elem_iff]
      intro hm
      exact hqa '?' hm (Or.inl rfl))]

theorem C10_cleanPath_amended_witness :
    cleanPath (fun _ => none) (fun _ => none) false "/asd/".toList =
      some "/asd".toList := by
  have h := (C10_cleanPath_amended (fun _ => none) (fun _ => none) "/asd/".toList
    (by decide) (by decide)).2 (by decide) (by decide)
  rw [h]
  decide

end GC
